import Mathlib

/-!
# Verification of the `nets` library (Time Petri Nets, Go)

Shallow embedding of the `nets` package: the sparse sorted-multiset Marking
algebra (`nets.go`, `marking.go`), the canonicalization of markings into
interned handles (`unique.go`), time-interval bound arithmetic
(`interval.go`), the priority-closure algorithm (`nets.go`), and the
scanner/parser pipeline (`scanner.go`, `parser.go`).

Go machine integers (`int`, 64-bit) are modelled as `Int`, with explicit
wrap-around (`% 2^64`, `% 2^32`) at the places where the Go code converts
or may overflow.  Go strings are modelled as `List Char`.  Go `nil` slices
are modelled as `[]` (the Go code treats a `nil` Marking and an empty
Marking identically in every operation embedded here).
-/

deriving instance DecidableEq for Except

namespace Nets

/-- An `Atom` is a pair of a place index and a multiplicity (Go `Atom`
struct with fields `Pl, Mult int`). -/
structure Atom where
  pl : Int
  mult : Int
deriving DecidableEq, Repr

/-- A `Marking` is a list of atoms, kept sorted in strictly increasing
order of place index with no zero multiplicity (Go `type Marking []Atom`). -/
abbrev Marking := List Atom

/-- Loop body of Go `Marking.add` / `Marking.AddToPlace` for a non-zero
multiplicity `mul`: scan for `val`; add to it (dropping the atom if the sum
is 0), or insert at the sorted position, or append at the end. -/
def Marking.addAux : Marking → Int → Int → Marking
  | [], val, mul => [⟨val, mul⟩]
  | a :: r, val, mul =>
    if a.pl = val then
      (if a.mult + mul = 0 then r else ⟨a.pl, a.mult + mul⟩ :: r)
    else if a.pl > val then ⟨val, mul⟩ :: a :: r
    else a :: Marking.addAux r val mul

/-- Go `Marking.add` (`nets.go`) / `Marking.AddToPlace` (`marking.go`):
update a marking by adding multiplicity `mul` to place `val`.  A zero `mul`
is a no-op; the Go `nil`-marking case coincides with the empty-list case of
`addAux`. -/
def Marking.add (m : Marking) (val mul : Int) : Marking :=
  if mul = 0 then m else Marking.addAux m val mul

/-- Go `Add(m1, m2 Marking)` (`nets.go`) / method `Marking.Add`
(`marking.go`): pointwise sum by sorted merge, dropping atoms whose
multiplicities cancel. -/
def Marking.Add : Marking → Marking → Marking
  | [], m2 => m2
  | a1 :: t1, [] => a1 :: t1
  | a1 :: t1, a2 :: t2 =>
    if a1.pl = a2.pl then
      (if a1.mult + a2.mult = 0 then Marking.Add t1 t2
       else ⟨a1.pl, a1.mult + a2.mult⟩ :: Marking.Add t1 t2)
    else if a1.pl < a2.pl then a1 :: Marking.Add t1 (a2 :: t2)
    else a2 :: Marking.Add (a1 :: t1) t2

/-- Go `Marking.Get`: multiplicity of place `v`, 0 when absent (the scan
stops early at the first atom with a larger place index). -/
def Marking.Get : Marking → Int → Int
  | [], _ => 0
  | a :: r, v => if a.pl = v then a.mult else if a.pl > v then 0 else Marking.Get r v

/-- Go `Marking.setifbigger` (`nets.go`) / `Marking.updateIfGreater`
(`marking.go`): set the multiplicity of `val` to `mul`, but only if `mul`
is bigger than the existing value; insert if absent. -/
def Marking.setifbigger : Marking → Int → Int → Marking
  | [], val, mul => [⟨val, mul⟩]
  | a :: r, val, mul =>
    if a.pl = val then (if a.mult < mul then ⟨a.pl, mul⟩ :: r else a :: r)
    else if a.pl > val then ⟨val, mul⟩ :: a :: r
    else a :: Marking.setifbigger r val mul

/-- Go `Marking.setiflower` (`nets.go`) / `Marking.updateIfLess`
(`marking.go`): set the multiplicity of `val` to `mul`, but only if `mul`
is lower than the existing value; insert if absent. -/
def Marking.setiflower : Marking → Int → Int → Marking
  | [], val, mul => [⟨val, mul⟩]
  | a :: r, val, mul =>
    if a.pl = val then (if a.mult > mul then ⟨a.pl, mul⟩ :: r else a :: r)
    else if a.pl > val then ⟨val, mul⟩ :: a :: r
    else a :: Marking.setiflower r val mul

/-- Place indices strictly increase along the marking (executable check). -/
def Marking.sortedb : Marking → Bool
  | [] => true
  | [_] => true
  | a :: b :: r => (a.pl < b.pl) && Marking.sortedb (b :: r)

/-- The canonical-representation invariant of a `Marking`: strictly
increasing place indices (hence no duplicate index) and no atom with
multiplicity 0. -/
def Marking.canonical (m : Marking) : Bool :=
  m.sortedb && m.all (fun a => a.mult ≠ 0)

theorem Marking.sortedb_iff_pairwise :
    ∀ m : Marking, m.sortedb = true ↔ m.Pairwise (fun a b => a.pl < b.pl)
  | [] => by simp [Marking.sortedb]
  | [a] => by simp [Marking.sortedb]
  | a :: b :: r => by
    rw [List.pairwise_cons, List.pairwise_cons]
    have ih := Marking.sortedb_iff_pairwise (b :: r)
    rw [List.pairwise_cons] at ih
    constructor
    · intro h
      simp only [Marking.sortedb, Bool.and_eq_true, decide_eq_true_eq] at h
      obtain ⟨hab, hrest⟩ := h
      obtain ⟨hb, hr⟩ := ih.1 hrest
      refine ⟨?_, ih.1 hrest⟩
      intro x hx
      rw [List.mem_cons] at hx
      rcases hx with hx | hx
      · exact hx ▸ hab
      · exact lt_trans hab (hb x hx)
    · intro ⟨hall, hrest⟩
      simp only [Marking.sortedb, Bool.and_eq_true, decide_eq_true_eq]
      exact ⟨hall b (.head _), ih.2 hrest⟩

theorem Marking.canonical_iff (m : Marking) :
    m.canonical = true ↔
      m.Pairwise (fun a b => a.pl < b.pl) ∧ ∀ a ∈ m, a.mult ≠ 0 := by
  simp [Marking.canonical, Marking.sortedb_iff_pairwise]

/-- Every place index occurring in `addAux m val mul` is `val` or occurs
in `m`. -/
theorem Marking.pl_mem_addAux :
    ∀ (m : Marking) (val mul : Int) (x : Atom), x ∈ Marking.addAux m val mul →
      x.pl = val ∨ x.pl ∈ m.map Atom.pl
  | [], val, mul, x => by
    intro hx
    simp only [Marking.addAux, List.mem_singleton] at hx
    subst hx; left; rfl
  | a :: r, val, mul, x => by
    intro hx
    by_cases h1 : a.pl = val
    · by_cases h2 : a.mult + mul = 0
      · simp only [Marking.addAux, if_pos h1, if_pos h2] at hx
        right; exact List.mem_map_of_mem Atom.pl (List.mem_cons_of_mem a hx)
      · simp only [Marking.addAux, if_pos h1, if_neg h2, List.mem_cons] at hx
        rcases hx with hx | hx
        · left; subst hx; exact h1
        · right; exact List.mem_map_of_mem Atom.pl (List.mem_cons_of_mem a hx)
    · by_cases h2 : a.pl > val
      · simp only [Marking.addAux, if_neg h1, if_pos h2, List.mem_cons] at hx
        rcases hx with hx | hx | hx
        · left; subst hx; rfl
        · right; subst hx; exact List.mem_map_of_mem Atom.pl (.head _)
        · right; exact List.mem_map_of_mem Atom.pl (List.mem_cons_of_mem a hx)
      · simp only [Marking.addAux, if_neg h1, if_neg h2, List.mem_cons] at hx
        rcases hx with hx | hx
        · right; subst hx; exact List.mem_map_of_mem Atom.pl (.head _)
        · rcases Marking.pl_mem_addAux r val mul x hx with h | h
          · left; exact h
          · right
            simp only [List.map_cons, List.mem_cons] at h ⊢
            exact Or.inr h

theorem Marking.addAux_pairwise :
    ∀ (m : Marking) (val mul : Int),
      m.Pairwise (fun a b => a.pl < b.pl) →
      (Marking.addAux m val mul).Pairwise (fun a b => a.pl < b.pl)
  | [], val, mul, _ => by simp [Marking.addAux]
  | a :: r, val, mul, h => by
    rw [List.pairwise_cons] at h
    obtain ⟨ha, hr⟩ := h
    by_cases h1 : a.pl = val
    · by_cases h2 : a.mult + mul = 0
      · simpa only [Marking.addAux, if_pos h1, if_pos h2] using hr
      · simp only [Marking.addAux, if_pos h1, if_neg h2]
        rw [List.pairwise_cons]
        exact ⟨fun b hb => h1 ▸ ha b hb, hr⟩
    · by_cases h2 : a.pl > val
      · simp only [Marking.addAux, if_neg h1, if_pos h2]
        rw [List.pairwise_cons, List.pairwise_cons]
        refine ⟨?_, ha, hr⟩
        intro b hb
        rw [List.mem_cons] at hb
        show val < b.pl
        rcases hb with hb | hb
        · subst hb; exact h2
        · calc val < a.pl := h2
            _ < b.pl := ha b hb
      · simp only [Marking.addAux, if_neg h1, if_neg h2]
        rw [List.pairwise_cons]
        refine ⟨?_, Marking.addAux_pairwise r val mul hr⟩
        intro b hb
        rcases Marking.pl_mem_addAux r val mul b hb with h | h
        · omega
        · obtain ⟨c, hc, hcb⟩ := List.mem_map.1 h
          exact hcb ▸ ha c hc

theorem Marking.addAux_nozero :
    ∀ (m : Marking) (val mul : Int), mul ≠ 0 →
      (∀ a ∈ m, a.mult ≠ 0) →
      ∀ a ∈ Marking.addAux m val mul, a.mult ≠ 0
  | [], val, mul, hmul, _, a => by
    intro ha
    simp only [Marking.addAux, List.mem_singleton] at ha
    subst ha; exact hmul
  | b :: r, val, mul, hmul, hm, a => by
    intro ha
    by_cases h1 : b.pl = val
    · by_cases h2 : b.mult + mul = 0
      · simp only [Marking.addAux, if_pos h1, if_pos h2] at ha
        exact hm a (List.mem_cons_of_mem b ha)
      · simp only [Marking.addAux, if_pos h1, if_neg h2, List.mem_cons] at ha
        rcases ha with ha | ha
        · subst ha; exact h2
        · exact hm a (List.mem_cons_of_mem b ha)
    · by_cases h2 : b.pl > val
      · simp only [Marking.addAux, if_neg h1, if_pos h2, List.mem_cons] at ha
        rcases ha with ha | ha | ha
        · subst ha; exact hmul
        · subst ha; exact hm a (.head _)
        · exact hm a (List.mem_cons_of_mem b ha)
      · simp only [Marking.addAux, if_neg h1, if_neg h2, List.mem_cons] at ha
        rcases ha with ha | ha
        · subst ha; exact hm a (.head _)
        · exact Marking.addAux_nozero r val mul hmul
            (fun x hx => hm x (List.mem_cons_of_mem b hx)) a ha

/-- `Marking.add` preserves the canonical invariant, for every place index
and multiplicity argument. -/
theorem Marking.add_canonical (m : Marking) (val mul : Int)
    (h : m.canonical = true) : (m.add val mul).canonical = true := by
  unfold Marking.add
  split
  · exact h
  · rename_i hmul
    rw [Marking.canonical_iff] at h ⊢
    exact ⟨Marking.addAux_pairwise m val mul h.1,
      Marking.addAux_nozero m val mul hmul h.2⟩

theorem Marking.pl_mem_setifbigger :
    ∀ (m : Marking) (val mul : Int) (x : Atom), x ∈ Marking.setifbigger m val mul →
      x.pl = val ∨ x.pl ∈ m.map Atom.pl
  | [], val, mul, x => by
    intro hx
    simp only [Marking.setifbigger, List.mem_singleton] at hx
    subst hx; left; rfl
  | a :: r, val, mul, x => by
    intro hx
    by_cases h1 : a.pl = val
    · by_cases h2 : a.mult < mul
      · simp only [Marking.setifbigger, if_pos h1, if_pos h2, List.mem_cons] at hx
        rcases hx with hx | hx
        · left; subst hx; exact h1
        · right; exact List.mem_map_of_mem Atom.pl (List.mem_cons_of_mem a hx)
      · simp only [Marking.setifbigger, if_pos h1, if_neg h2, List.mem_cons] at hx
        rcases hx with hx | hx
        · right; subst hx; exact List.mem_map_of_mem Atom.pl (.head _)
        · right; exact List.mem_map_of_mem Atom.pl (List.mem_cons_of_mem a hx)
    · by_cases h2 : a.pl > val
      · simp only [Marking.setifbigger, if_neg h1, if_pos h2, List.mem_cons] at hx
        rcases hx with hx | hx | hx
        · left; subst hx; rfl
        · right; subst hx; exact List.mem_map_of_mem Atom.pl (.head _)
        · right; exact List.mem_map_of_mem Atom.pl (List.mem_cons_of_mem a hx)
      · simp only [Marking.setifbigger, if_neg h1, if_neg h2, List.mem_cons] at hx
        rcases hx with hx | hx
        · right; subst hx; exact List.mem_map_of_mem Atom.pl (.head _)
        · rcases Marking.pl_mem_setifbigger r val mul x hx with h | h
          · left; exact h
          · right
            simp only [List.map_cons, List.mem_cons] at h ⊢
            exact Or.inr h

theorem Marking.setifbigger_pairwise :
    ∀ (m : Marking) (val mul : Int),
      m.Pairwise (fun a b => a.pl < b.pl) →
      (Marking.setifbigger m val mul).Pairwise (fun a b => a.pl < b.pl)
  | [], val, mul, _ => by simp [Marking.setifbigger]
  | a :: r, val, mul, h => by
    rw [List.pairwise_cons] at h
    obtain ⟨ha, hr⟩ := h
    by_cases h1 : a.pl = val
    · by_cases h2 : a.mult < mul
      · simp only [Marking.setifbigger, if_pos h1, if_pos h2]
        rw [List.pairwise_cons]
        exact ⟨fun b hb => ha b hb, hr⟩
      · simp only [Marking.setifbigger, if_pos h1, if_neg h2]
        rw [List.pairwise_cons]
        exact ⟨ha, hr⟩
    · by_cases h2 : a.pl > val
      · simp only [Marking.setifbigger, if_neg h1, if_pos h2]
        rw [List.pairwise_cons, List.pairwise_cons]
        refine ⟨?_, ha, hr⟩
        intro b hb
        rw [List.mem_cons] at hb
        show val < b.pl
        rcases hb with hb | hb
        · subst hb; exact h2
        · calc val < a.pl := h2
            _ < b.pl := ha b hb
      · simp only [Marking.setifbigger, if_neg h1, if_neg h2]
        rw [List.pairwise_cons]
        refine ⟨?_, Marking.setifbigger_pairwise r val mul hr⟩
        intro b hb
        rcases Marking.pl_mem_setifbigger r val mul b hb with h | h
        · omega
        · obtain ⟨c, hc, hcb⟩ := List.mem_map.1 h
          exact hcb ▸ ha c hc

theorem Marking.setifbigger_nozero :
    ∀ (m : Marking) (val mul : Int), mul ≠ 0 →
      (∀ a ∈ m, a.mult ≠ 0) →
      ∀ a ∈ Marking.setifbigger m val mul, a.mult ≠ 0
  | [], val, mul, hmul, _, a => by
    intro ha
    simp only [Marking.setifbigger, List.mem_singleton] at ha
    subst ha; exact hmul
  | b :: r, val, mul, hmul, hm, a => by
    intro ha
    by_cases h1 : b.pl = val
    · by_cases h2 : b.mult < mul
      · simp only [Marking.setifbigger, if_pos h1, if_pos h2, List.mem_cons] at ha
        rcases ha with ha | ha
        · subst ha; exact hmul
        · exact hm a (List.mem_cons_of_mem b ha)
      · simp only [Marking.setifbigger, if_pos h1, if_neg h2, List.mem_cons] at ha
        rcases ha with ha | ha
        · subst ha; exact hm a (.head _)
        · exact hm a (List.mem_cons_of_mem b ha)
    · by_cases h2 : b.pl > val
      · simp only [Marking.setifbigger, if_neg h1, if_pos h2, List.mem_cons] at ha
        rcases ha with ha | ha | ha
        · subst ha; exact hmul
        · subst ha; exact hm a (.head _)
        · exact hm a (List.mem_cons_of_mem b ha)
      · simp only [Marking.setifbigger, if_neg h1, if_neg h2, List.mem_cons] at ha
        rcases ha with ha | ha
        · subst ha; exact hm a (.head _)
        · exact Marking.setifbigger_nozero r val mul hmul
            (fun x hx => hm x (List.mem_cons_of_mem b hx)) a ha

theorem Marking.pl_mem_setiflower :
    ∀ (m : Marking) (val mul : Int) (x : Atom), x ∈ Marking.setiflower m val mul →
      x.pl = val ∨ x.pl ∈ m.map Atom.pl
  | [], val, mul, x => by
    intro hx
    simp only [Marking.setiflower, List.mem_singleton] at hx
    subst hx; left; rfl
  | a :: r, val, mul, x => by
    intro hx
    by_cases h1 : a.pl = val
    · by_cases h2 : a.mult > mul
      · simp only [Marking.setiflower, if_pos h1, if_pos h2, List.mem_cons] at hx
        rcases hx with hx | hx
        · left; subst hx; exact h1
        · right; exact List.mem_map_of_mem Atom.pl (List.mem_cons_of_mem a hx)
      · simp only [Marking.setiflower, if_pos h1, if_neg h2, List.mem_cons] at hx
        rcases hx with hx | hx
        · right; subst hx; exact List.mem_map_of_mem Atom.pl (.head _)
        · right; exact List.mem_map_of_mem Atom.pl (List.mem_cons_of_mem a hx)
    · by_cases h2 : a.pl > val
      · simp only [Marking.setiflower, if_neg h1, if_pos h2, List.mem_cons] at hx
        rcases hx with hx | hx | hx
        · left; subst hx; rfl
        · right; subst hx; exact List.mem_map_of_mem Atom.pl (.head _)
        · right; exact List.mem_map_of_mem Atom.pl (List.mem_cons_of_mem a hx)
      · simp only [Marking.setiflower, if_neg h1, if_neg h2, List.mem_cons] at hx
        rcases hx with hx | hx
        · right; subst hx; exact List.mem_map_of_mem Atom.pl (.head _)
        · rcases Marking.pl_mem_setiflower r val mul x hx with h | h
          · left; exact h
          · right
            simp only [List.map_cons, List.mem_cons] at h ⊢
            exact Or.inr h

theorem Marking.setiflower_pairwise :
    ∀ (m : Marking) (val mul : Int),
      m.Pairwise (fun a b => a.pl < b.pl) →
      (Marking.setiflower m val mul).Pairwise (fun a b => a.pl < b.pl)
  | [], val, mul, _ => by simp [Marking.setiflower]
  | a :: r, val, mul, h => by
    rw [List.pairwise_cons] at h
    obtain ⟨ha, hr⟩ := h
    by_cases h1 : a.pl = val
    · by_cases h2 : a.mult > mul
      · simp only [Marking.setiflower, if_pos h1, if_pos h2]
        rw [List.pairwise_cons]
        exact ⟨fun b hb => ha b hb, hr⟩
      · simp only [Marking.setiflower, if_pos h1, if_neg h2]
        rw [List.pairwise_cons]
        exact ⟨ha, hr⟩
    · by_cases h2 : a.pl > val
      · simp only [Marking.setiflower, if_neg h1, if_pos h2]
        rw [List.pairwise_cons, List.pairwise_cons]
        refine ⟨?_, ha, hr⟩
        intro b hb
        rw [List.mem_cons] at hb
        show val < b.pl
        rcases hb with hb | hb
        · subst hb; exact h2
        · calc val < a.pl := h2
            _ < b.pl := ha b hb
      · simp only [Marking.setiflower, if_neg h1, if_neg h2]
        rw [List.pairwise_cons]
        refine ⟨?_, Marking.setiflower_pairwise r val mul hr⟩
        intro b hb
        rcases Marking.pl_mem_setiflower r val mul b hb with h | h
        · omega
        · obtain ⟨c, hc, hcb⟩ := List.mem_map.1 h
          exact hcb ▸ ha c hc

theorem Marking.setiflower_nozero :
    ∀ (m : Marking) (val mul : Int), mul ≠ 0 →
      (∀ a ∈ m, a.mult ≠ 0) →
      ∀ a ∈ Marking.setiflower m val mul, a.mult ≠ 0
  | [], val, mul, hmul, _, a => by
    intro ha
    simp only [Marking.setiflower, List.mem_singleton] at ha
    subst ha; exact hmul
  | b :: r, val, mul, hmul, hm, a => by
    intro ha
    by_cases h1 : b.pl = val
    · by_cases h2 : b.mult > mul
      · simp only [Marking.setiflower, if_pos h1, if_pos h2, List.mem_cons] at ha
        rcases ha with ha | ha
        · subst ha; exact hmul
        · exact hm a (List.mem_cons_of_mem b ha)
      · simp only [Marking.setiflower, if_pos h1, if_neg h2, List.mem_cons] at ha
        rcases ha with ha | ha
        · subst ha; exact hm a (.head _)
        · exact hm a (List.mem_cons_of_mem b ha)
    · by_cases h2 : b.pl > val
      · simp only [Marking.setiflower, if_neg h1, if_pos h2, List.mem_cons] at ha
        rcases ha with ha | ha | ha
        · subst ha; exact hmul
        · subst ha; exact hm a (.head _)
        · exact hm a (List.mem_cons_of_mem b ha)
      · simp only [Marking.setiflower, if_neg h1, if_neg h2, List.mem_cons] at ha
        rcases ha with ha | ha
        · subst ha; exact hm a (.head _)
        · exact Marking.setiflower_nozero r val mul hmul
            (fun x hx => hm x (List.mem_cons_of_mem b hx)) a ha

theorem Marking.pl_mem_Add (m1 m2 : Marking) (x : Atom)
    (hx : x ∈ Marking.Add m1 m2) :
    x.pl ∈ m1.map Atom.pl ∨ x.pl ∈ m2.map Atom.pl := by
  induction m1, m2 using Marking.Add.induct with
  | case1 m2 =>
    right
    simp only [Marking.Add] at hx
    exact List.mem_map_of_mem Atom.pl hx
  | case2 a1 t1 =>
    left
    simp only [Marking.Add] at hx
    exact List.mem_map_of_mem Atom.pl hx
  | case3 a1 t1 a2 t2 heq hz ih =>
    simp only [Marking.Add, if_pos heq, if_pos hz] at hx
    rcases ih hx with h | h
    · left; exact List.mem_cons_of_mem _ h
    · right; exact List.mem_cons_of_mem _ h
  | case4 a1 t1 a2 t2 heq hz ih =>
    simp only [Marking.Add, if_pos heq, if_neg hz, List.mem_cons] at hx
    rcases hx with hx | hx
    · left; subst hx; exact .head _
    · rcases ih hx with h | h
      · left; exact List.mem_cons_of_mem _ h
      · right; exact List.mem_cons_of_mem _ h
  | case5 a1 t1 a2 t2 hne hlt ih =>
    simp only [Marking.Add, if_neg hne, if_pos hlt, List.mem_cons] at hx
    rcases hx with hx | hx
    · left; subst hx; exact .head _
    · rcases ih hx with h | h
      · left; exact List.mem_cons_of_mem _ h
      · right; exact h
  | case6 a1 t1 a2 t2 hne hlt ih =>
    simp only [Marking.Add, if_neg hne, if_neg hlt, List.mem_cons] at hx
    rcases hx with hx | hx
    · right; subst hx; exact .head _
    · rcases ih hx with h | h
      · left; exact h
      · right; exact List.mem_cons_of_mem _ h

theorem Marking.Add_pairwise (m1 m2 : Marking)
    (h1 : m1.Pairwise (fun a b => a.pl < b.pl))
    (h2 : m2.Pairwise (fun a b => a.pl < b.pl)) :
    (Marking.Add m1 m2).Pairwise (fun a b => a.pl < b.pl) := by
  induction m1, m2 using Marking.Add.induct with
  | case1 m2 => simpa only [Marking.Add] using h2
  | case2 a1 t1 => simpa only [Marking.Add] using h1
  | case3 a1 t1 a2 t2 heq hz ih =>
    rw [List.pairwise_cons] at h1 h2
    simp only [Marking.Add, if_pos heq, if_pos hz]
    exact ih h1.2 h2.2
  | case4 a1 t1 a2 t2 heq hz ih =>
    rw [List.pairwise_cons] at h1 h2
    simp only [Marking.Add, if_pos heq, if_neg hz]
    rw [List.pairwise_cons]
    refine ⟨?_, ih h1.2 h2.2⟩
    intro b hb
    show a1.pl < b.pl
    rcases Marking.pl_mem_Add t1 t2 b hb with h | h
    · obtain ⟨c, hc, hcb⟩ := List.mem_map.1 h
      exact hcb ▸ h1.1 c hc
    · obtain ⟨c, hc, hcb⟩ := List.mem_map.1 h
      exact hcb ▸ heq ▸ h2.1 c hc
  | case5 a1 t1 a2 t2 hne hlt ih =>
    rw [List.pairwise_cons] at h1
    simp only [Marking.Add, if_neg hne, if_pos hlt]
    rw [List.pairwise_cons]
    refine ⟨?_, ih h1.2 h2⟩
    intro b hb
    rcases Marking.pl_mem_Add t1 (a2 :: t2) b hb with h | h
    · obtain ⟨c, hc, hcb⟩ := List.mem_map.1 h
      exact hcb ▸ h1.1 c hc
    · obtain ⟨c, hc, hcb⟩ := List.mem_map.1 h
      rw [List.mem_cons] at hc
      rcases hc with hc | hc
      · subst hc; omega
      · rw [List.pairwise_cons] at h2
        calc a1.pl < a2.pl := hlt
          _ < c.pl := h2.1 c hc
          _ = b.pl := hcb
  | case6 a1 t1 a2 t2 hne hlt ih =>
    rw [List.pairwise_cons] at h2
    simp only [Marking.Add, if_neg hne, if_neg hlt]
    rw [List.pairwise_cons]
    refine ⟨?_, ih h1 h2.2⟩
    intro b hb
    have hgt : a2.pl < a1.pl := by omega
    rcases Marking.pl_mem_Add (a1 :: t1) t2 b hb with h | h
    · obtain ⟨c, hc, hcb⟩ := List.mem_map.1 h
      rw [List.mem_cons] at hc
      rcases hc with hc | hc
      · subst hc; omega
      · rw [List.pairwise_cons] at h1
        calc a2.pl < a1.pl := hgt
          _ < c.pl := h1.1 c hc
          _ = b.pl := hcb
    · obtain ⟨c, hc, hcb⟩ := List.mem_map.1 h
      exact hcb ▸ h2.1 c hc

theorem Marking.Add_nozero (m1 m2 : Marking)
    (h1 : ∀ a ∈ m1, a.mult ≠ 0) (h2 : ∀ a ∈ m2, a.mult ≠ 0) :
    ∀ a ∈ Marking.Add m1 m2, a.mult ≠ 0 := by
  induction m1, m2 using Marking.Add.induct with
  | case1 m2 =>
    intro a ha
    simp only [Marking.Add] at ha
    exact h2 a ha
  | case2 a1 t1 =>
    intro a ha
    simp only [Marking.Add] at ha
    exact h1 a ha
  | case3 a1 t1 a2 t2 heq hz ih =>
    intro a ha
    simp only [Marking.Add, if_pos heq, if_pos hz] at ha
    exact ih (fun x hx => h1 x (List.mem_cons_of_mem a1 hx))
      (fun x hx => h2 x (List.mem_cons_of_mem a2 hx)) a ha
  | case4 a1 t1 a2 t2 heq hz ih =>
    intro a ha
    simp only [Marking.Add, if_pos heq, if_neg hz, List.mem_cons] at ha
    rcases ha with ha | ha
    · subst ha; exact hz
    · exact ih (fun x hx => h1 x (List.mem_cons_of_mem a1 hx))
        (fun x hx => h2 x (List.mem_cons_of_mem a2 hx)) a ha
  | case5 a1 t1 a2 t2 hne hlt ih =>
    intro a ha
    simp only [Marking.Add, if_neg hne, if_pos hlt, List.mem_cons] at ha
    rcases ha with ha | ha
    · subst ha; exact h1 a (.head _)
    · exact ih (fun x hx => h1 x (List.mem_cons_of_mem a1 hx)) h2 a ha
  | case6 a1 t1 a2 t2 hne hlt ih =>
    intro a ha
    simp only [Marking.Add, if_neg hne, if_neg hlt, List.mem_cons] at ha
    rcases ha with ha | ha
    · subst ha; exact h2 a (.head _)
    · exact ih h1 (fun x hx => h2 x (List.mem_cons_of_mem a2 hx)) a ha

/-- **C3** (amended).  Applied to canonical Markings, `add`/`AddToPlace` and
the pointwise `Add` preserve canonicity for every place index and every
multiplicity; `setifbigger`/`updateIfGreater` and `setiflower`/`updateIfLess`
preserve canonicity for every place index and every *non-zero* multiplicity
argument (with multiplicity 0 they can insert a zero-multiplicity atom). -/
theorem claim_C3_ops_preserve_canonical (m m2 : Marking) (val mul : Int)
    (hm : m.canonical = true) (hm2 : m2.canonical = true) :
    (m.add val mul).canonical = true ∧
    (Marking.Add m m2).canonical = true ∧
    (mul ≠ 0 →
      (m.setifbigger val mul).canonical = true ∧
      (m.setiflower val mul).canonical = true) := by
  rw [Marking.canonical_iff] at hm hm2
  refine ⟨Marking.add_canonical m val mul (by rw [Marking.canonical_iff]; exact hm), ?_, ?_⟩
  · rw [Marking.canonical_iff]
    exact ⟨Marking.Add_pairwise m m2 hm.1 hm2.1, Marking.Add_nozero m m2 hm.2 hm2.2⟩
  · intro hmul
    constructor
    · rw [Marking.canonical_iff]
      exact ⟨Marking.setifbigger_pairwise m val mul hm.1,
        Marking.setifbigger_nozero m val mul hmul hm.2⟩
    · rw [Marking.canonical_iff]
      exact ⟨Marking.setiflower_pairwise m val mul hm.1,
        Marking.setiflower_nozero m val mul hmul hm.2⟩

/-- **C3**, witness for the amended theorem at a concrete input. -/
theorem claim_C3_witness :
    (Marking.canonical [⟨0, 1⟩] = true) ∧ (Marking.canonical [⟨1, 2⟩] = true) ∧
    ((Marking.add [⟨0, 1⟩] 0 5).canonical = true ∧
     (Marking.Add [⟨0, 1⟩] [⟨1, 2⟩]).canonical = true ∧
     ((5 : Int) ≠ 0 →
       (Marking.setifbigger [⟨0, 1⟩] 0 5).canonical = true ∧
       (Marking.setiflower [⟨0, 1⟩] 0 5).canonical = true)) :=
  ⟨by decide, by decide,
    claim_C3_ops_preserve_canonical [⟨0, 1⟩] [⟨1, 2⟩] 0 5 (by decide) (by decide)⟩

/-- **C3**, counterexample to the claim as stated: `setiflower` applied to
the (canonical) empty Marking with multiplicity argument 0 returns a
Marking with a zero-multiplicity entry, hence not canonical. -/
theorem claim_C3_counterexample :
    Marking.canonical [] = true ∧
    Marking.canonical (Marking.setiflower [] 0 0) = false := by decide

/-- Go conversion `uint32(x)` on a 64-bit `int`: reduction modulo `2^32`
(`4294967296`). -/
def u32 (x : Int) : Nat := (x % 4294967296).toNat

/-- `binary.BigEndian.PutUint32`: the four bytes of a 32-bit value, most
significant byte first (each `byte(v >> k)` truncates modulo 256). -/
def putUint32 (n : Nat) : List Nat :=
  [n / 16777216 % 256, n / 65536 % 256, n / 256 % 256, n % 256]

/-- A `Handle` is the interned version (Go `unique.Make`) of the byte
string encoding a marking.  Interning maps equal byte strings to the
identical handle and `Handle.Value` recovers the byte string, so a Handle
is modelled by its byte string. -/
abbrev Handle := List Nat

/-- Loop of Go `Marking.Unique` (`unique.go`): reject an atom whose
multiplicity is negative or `>= math.MaxInt32` (`2147483647`), otherwise
append the big-endian 32-bit encodings of place index and multiplicity to
the buffer.  On error, Go returns `Handle(unique.Make(""))`, i.e. the
handle of the empty byte string. -/
def Marking.uniqueLoop : Marking → List Nat → Handle × Option String
  | [], buf => (buf, none)
  | a :: r, buf =>
    if a.mult < 0 then ([], some "negative multiplicity")
    else if a.mult ≥ 2147483647 then ([], some "multiplicity over MaxInt32")
    else Marking.uniqueLoop r (buf ++ (putUint32 (u32 a.pl) ++ putUint32 (u32 a.mult)))

/-- Go `Marking.Unique`: the interned byte encoding of a marking together
with the error component of the Go return pair (`none` = `nil` error). -/
def Marking.Unique (m : Marking) : Handle × Option String :=
  Marking.uniqueLoop m []

/-- Go `Handle.Marking` (`unique.go`): decode the byte string back into a
marking, reading consecutive 8-byte groups (place index then multiplicity,
32-bit big-endian each).  Byte strings produced by `Unique` always have a
multiple of 8 bytes. -/
def Handle.Marking : Handle → Marking
  | b0 :: b1 :: b2 :: b3 :: b4 :: b5 :: b6 :: b7 :: r =>
    ⟨(((b0 * 256 + b1) * 256 + b2) * 256 + b3 : Nat),
     (((b4 * 256 + b5) * 256 + b6) * 256 + b7 : Nat)⟩ :: Handle.Marking r
  | _ => []

/-- The byte encoding written by a complete, error-free run of the
`Marking.Unique` loop. -/
def Marking.encode : Marking → List Nat
  | [] => []
  | a :: r => putUint32 (u32 a.pl) ++ putUint32 (u32 a.mult) ++ Marking.encode r

theorem Marking.uniqueLoop_ok :
    ∀ (m : Marking), (∀ a ∈ m, 0 ≤ a.mult ∧ a.mult < 2147483647) →
      ∀ buf, Marking.uniqueLoop m buf = (buf ++ m.encode, none)
  | [], _, buf => by simp [Marking.uniqueLoop, Marking.encode]
  | a :: r, h, buf => by
    have ha := h a (.head _)
    have h1 : ¬ a.mult < 0 := by omega
    have h2 : ¬ a.mult ≥ 2147483647 := by omega
    simp only [Marking.uniqueLoop, if_neg h1, if_neg h2, Marking.encode]
    rw [Marking.uniqueLoop_ok r (fun x hx => h x (List.mem_cons_of_mem a hx))]
    simp [List.append_assoc]

theorem decode_atom (a : Atom) (r : List Nat)
    (hpl0 : 0 ≤ a.pl) (hpl : a.pl < 4294967296)
    (hm0 : 0 ≤ a.mult) (hm : a.mult < 4294967296) :
    Handle.Marking (putUint32 (u32 a.pl) ++ putUint32 (u32 a.mult) ++ r)
      = a :: Handle.Marking r := by
  obtain ⟨apl, amult⟩ := a
  simp only [Atom.mk.injEq] at hpl0 hpl hm0 hm ⊢
  simp only [putUint32, u32, List.cons_append, List.nil_append, Handle.Marking,
    List.cons.injEq, Atom.mk.injEq]
  refine ⟨⟨?_, ?_⟩, rfl⟩ <;> omega

theorem decode_encode :
    ∀ (m : Nets.Marking),
      (∀ a ∈ m, 0 ≤ a.pl ∧ a.pl < 4294967296 ∧ 0 ≤ a.mult ∧ a.mult < 4294967296) →
      Handle.Marking m.encode = m
  | [], _ => rfl
  | a :: r, h => by
    obtain ⟨hpl0, hpl, hmult0, hmult⟩ := h a (.head _)
    show Handle.Marking
        (putUint32 (u32 a.pl) ++ putUint32 (u32 a.mult) ++ Marking.encode r) = _
    rw [decode_atom a _ hpl0 hpl hmult0 hmult,
      decode_encode r (fun x hx => h x (List.mem_cons_of_mem a hx))]

/-- **C1** (amended).  For every Marking whose place indices lie in
`[0, 2^32)` and whose multiplicities lie in `[0, 2^31 - 1)` (i.e. strictly
below `math.MaxInt32 = 2147483647` — the code also rejects the value
`2^31 - 1` itself), `Unique` succeeds and decoding the resulting Handle
with `Handle.Marking` returns a Marking equal to the original. -/
theorem claim_C1_roundtrip (m : Marking)
    (h : ∀ a ∈ m, 0 ≤ a.pl ∧ a.pl < 4294967296 ∧ 0 ≤ a.mult ∧ a.mult < 2147483647) :
    (m.Unique).snd = none ∧ Handle.Marking (m.Unique).fst = m := by
  have hml : ∀ a ∈ m, 0 ≤ a.mult ∧ a.mult < 2147483647 := by
    intro a ha
    have := h a ha
    exact ⟨this.2.2.1, this.2.2.2⟩
  unfold Marking.Unique
  rw [Marking.uniqueLoop_ok m hml []]
  refine ⟨rfl, ?_⟩
  show Handle.Marking m.encode = m
  refine decode_encode m (fun a ha => ?_)
  have := h a ha
  exact ⟨this.1, this.2.1, this.2.2.1, by omega⟩

/-- **C1**, witness for the amended theorem at a concrete marking. -/
theorem claim_C1_witness :
    (∀ a ∈ ([⟨3, 4⟩, ⟨5, 6⟩] : Marking),
      0 ≤ a.pl ∧ a.pl < 4294967296 ∧ 0 ≤ a.mult ∧ a.mult < 2147483647) ∧
    ((Marking.Unique [⟨3, 4⟩, ⟨5, 6⟩]).snd = none ∧
     Handle.Marking (Marking.Unique [⟨3, 4⟩, ⟨5, 6⟩]).fst = [⟨3, 4⟩, ⟨5, 6⟩]) :=
  ⟨by decide, claim_C1_roundtrip [⟨3, 4⟩, ⟨5, 6⟩] (by decide)⟩

/-- **C1**, counterexample to the claim as stated: the marking
`{0 : 2147483647}` has a single non-negative multiplicity that fits in 32
bits (it is `2^31 - 1`, the largest `int32`), yet `Unique` reports an
error rather than succeeding. -/
theorem claim_C1_counterexample :
    (0 : Int) ≤ 2147483647 ∧ (2147483647 : Int) < 4294967296 ∧
    (Marking.Unique [⟨0, 2147483647⟩]).snd ≠ none := by decide

theorem Marking.uniqueLoop_error_iff :
    ∀ (m : Marking) (buf : List Nat),
      (Marking.uniqueLoop m buf).snd ≠ none ↔
        ∃ a ∈ m, a.mult < 0 ∨ a.mult ≥ 2147483647
  | [], buf => by simp [Marking.uniqueLoop]
  | a :: r, buf => by
    by_cases h1 : a.mult < 0
    · simp only [Marking.uniqueLoop, if_pos h1]
      simp only [List.mem_cons]
      constructor
      · intro _; exact ⟨a, Or.inl rfl, Or.inl h1⟩
      · intro _; simp
    · by_cases h2 : a.mult ≥ 2147483647
      · simp only [Marking.uniqueLoop, if_neg h1, if_pos h2]
        simp only [List.mem_cons]
        constructor
        · intro _; exact ⟨a, Or.inl rfl, Or.inr h2⟩
        · intro _; simp
      · simp only [Marking.uniqueLoop, if_neg h1, if_neg h2]
        rw [Marking.uniqueLoop_error_iff r]
        constructor
        · rintro ⟨x, hx, hp⟩
          exact ⟨x, List.mem_cons_of_mem a hx, hp⟩
        · rintro ⟨x, hx, hp⟩
          rw [List.mem_cons] at hx
          rcases hx with hx | hx
          · subst hx; omega
          · exact ⟨x, hx, hp⟩

/-- **C4** (amended).  `Unique` returns an error if and only if the marking
contains an atom whose multiplicity is negative or at least
`math.MaxInt32 = 2147483647 = 2^31 - 1` (the claim's threshold `2^31` is
off by one: the value `2^31 - 1` is already rejected). -/
theorem claim_C4_unique_error_iff (m : Marking) :
    (m.Unique).snd ≠ none ↔ ∃ a ∈ m, a.mult < 0 ∨ a.mult ≥ 2147483647 :=
  Marking.uniqueLoop_error_iff m []

/-- **C4**, counterexample to the claim as stated: the multiplicity
`2147483647 = 2^31 - 1` is neither negative nor `≥ 2^31 = 2147483648`, so
the claim predicts success, but `Unique` reports an error. -/
theorem claim_C4_counterexample :
    ¬((2147483647 : Int) < 0 ∨ (2147483647 : Int) ≥ 2147483648) ∧
    (Marking.Unique [⟨7, 2147483647⟩]).snd ≠ none := by decide

theorem Marking.uniqueLoop_error_handle :
    ∀ (m : Marking) (buf : List Nat),
      (Marking.uniqueLoop m buf).snd ≠ none → (Marking.uniqueLoop m buf).fst = []
  | [], buf => by simp [Marking.uniqueLoop]
  | a :: r, buf => by
    intro h
    by_cases h1 : a.mult < 0
    · simp [Marking.uniqueLoop, if_pos h1]
    · by_cases h2 : a.mult ≥ 2147483647
      · simp [Marking.uniqueLoop, if_neg h1, if_pos h2]
      · simp only [Marking.uniqueLoop, if_neg h1, if_neg h2] at h ⊢
        exact Marking.uniqueLoop_error_handle r _ h

/-- **C10**.  When `Unique` fails, the Handle it returns alongside the
error is the handle of the empty byte string — the very same Handle value
that `Unique` returns for the empty Marking (interning makes equal byte
strings the identical handle), and it decodes to the empty Marking; a
caller that ignores the error cannot distinguish the two outcomes. -/
theorem claim_C10_error_handle (m : Marking) (h : (m.Unique).snd ≠ none) :
    (m.Unique).fst = (Marking.Unique []).fst ∧
    Handle.Marking (m.Unique).fst = ([] : Marking) := by
  have : (m.Unique).fst = [] := Marking.uniqueLoop_error_handle m [] h
  rw [this]
  exact ⟨rfl, rfl⟩

/-- **C10**, witness at a concrete failing marking. -/
theorem claim_C10_witness :
    ((Marking.Unique [⟨0, -1⟩]).snd ≠ none) ∧
    ((Marking.Unique [⟨0, -1⟩]).fst = (Marking.Unique []).fst ∧
     Handle.Marking (Marking.Unique [⟨0, -1⟩]).fst = ([] : Marking)) :=
  ⟨by decide, claim_C10_error_handle [⟨0, -1⟩] (by decide)⟩

/-- `Bkind` is the enumeration of the three kinds of time-interval bounds
(Go `type Bkind uint8` with constants `BINFTY`, `BCLOSE`, `BOPEN`; the
zero value is `BINFTY`). -/
inductive Bkind where
  | BINFTY
  | BCLOSE
  | BOPEN
deriving DecidableEq, Repr

/-- Go `Bound`: a bound kind together with its numeric value (`Value int`;
the value of an infinite bound is irrelevant but kept, as in Go). -/
structure Bound where
  kind : Bkind
  value : Int
deriving DecidableEq, Repr

/-- Go `TimeInterval`: a pair of bounds.  The zero value (an uninitialized
interval) has `BINFTY` on both sides. -/
structure TimeInterval where
  Left : Bound
  Right : Bound
deriving DecidableEq, Repr

/-- Go `BSubstract` (`interval.go`): difference of two bounds.  If `b1` is
infinite the result is `b1`; if `b2` is infinite the result is `b2` (an
infinite bound); otherwise the values are subtracted and the result is
open iff either operand is open. -/
def BSubstract (b1 b2 : Bound) : Bound :=
  if b1.kind = .BINFTY then b1
  else if b2.kind = .BINFTY then b2
  else if b1.kind = .BOPEN ∨ b2.kind = .BOPEN then ⟨.BOPEN, b1.value - b2.value⟩
  else ⟨.BCLOSE, b1.value - b2.value⟩

/-- Go `BAdd` (`interval.go`): sum of two bounds.  If `b1` is infinite the
result is `b1`; if `b2` is infinite the result is *`b1`* (the Go code
returns the first operand here, not the infinite one); otherwise the
values are added and the result is open iff either operand is open. -/
def BAdd (b1 b2 : Bound) : Bound :=
  if b1.kind = .BINFTY then b1
  else if b2.kind = .BINFTY then b1
  else if b1.kind = .BOPEN ∨ b2.kind = .BOPEN then ⟨.BOPEN, b1.value + b2.value⟩
  else ⟨.BCLOSE, b1.value + b2.value⟩

/-- **C7** (amended).  `BSubstract` absorbs infinity on either side
(returning an infinite bound) and otherwise subtracts the values, the
result being open iff either operand is open.  `BAdd` satisfies the stated
rule only partially: an infinite *first* operand is absorbed, but when only
the *second* operand is infinite, `BAdd` returns the first (finite) operand
unchanged instead of an infinite bound; for two finite operands it adds the
values, with the open/closed rule as stated. -/
theorem claim_C7_bound_arith (b1 b2 : Bound) :
    ((b1.kind = .BINFTY ∨ b2.kind = .BINFTY) → (BSubstract b1 b2).kind = .BINFTY) ∧
    (b1.kind ≠ .BINFTY → b2.kind ≠ .BINFTY →
      BSubstract b1 b2 =
        ⟨if b1.kind = .BOPEN ∨ b2.kind = .BOPEN then .BOPEN else .BCLOSE,
         b1.value - b2.value⟩) ∧
    (b1.kind = .BINFTY → (BAdd b1 b2).kind = .BINFTY) ∧
    (b1.kind ≠ .BINFTY → b2.kind = .BINFTY → BAdd b1 b2 = b1) ∧
    (b1.kind ≠ .BINFTY → b2.kind ≠ .BINFTY →
      BAdd b1 b2 =
        ⟨if b1.kind = .BOPEN ∨ b2.kind = .BOPEN then .BOPEN else .BCLOSE,
         b1.value + b2.value⟩) := by
  obtain ⟨k1, v1⟩ := b1
  obtain ⟨k2, v2⟩ := b2
  cases k1 <;> cases k2 <;> simp [BAdd, BSubstract]

/-- **C7**, witness for the amended theorem at concrete bounds. -/
theorem claim_C7_witness :
    ((Bound.mk .BCLOSE 1).kind = .BINFTY ∨ (Bound.mk .BINFTY 0).kind = .BINFTY →
      (BSubstract ⟨.BCLOSE, 1⟩ ⟨.BINFTY, 0⟩).kind = .BINFTY) ∧
    ((Bound.mk .BCLOSE 1).kind ≠ .BINFTY → (Bound.mk .BINFTY 0).kind ≠ .BINFTY →
      BSubstract ⟨.BCLOSE, 1⟩ ⟨.BINFTY, 0⟩ =
        ⟨if (Bound.mk .BCLOSE 1).kind = .BOPEN ∨ (Bound.mk .BINFTY 0).kind = .BOPEN
          then .BOPEN else .BCLOSE, 1 - 0⟩) ∧
    ((Bound.mk .BCLOSE 1).kind = .BINFTY → (BAdd ⟨.BCLOSE, 1⟩ ⟨.BINFTY, 0⟩).kind = .BINFTY) ∧
    ((Bound.mk .BCLOSE 1).kind ≠ .BINFTY → (Bound.mk .BINFTY 0).kind = .BINFTY →
      BAdd ⟨.BCLOSE, 1⟩ ⟨.BINFTY, 0⟩ = ⟨.BCLOSE, 1⟩) ∧
    ((Bound.mk .BCLOSE 1).kind ≠ .BINFTY → (Bound.mk .BINFTY 0).kind ≠ .BINFTY →
      BAdd ⟨.BCLOSE, 1⟩ ⟨.BINFTY, 0⟩ =
        ⟨if (Bound.mk .BCLOSE 1).kind = .BOPEN ∨ (Bound.mk .BINFTY 0).kind = .BOPEN
          then .BOPEN else .BCLOSE, 1 + 0⟩) :=
  claim_C7_bound_arith ⟨.BCLOSE, 1⟩ ⟨.BINFTY, 0⟩

/-- **C7**, counterexample to the claim as stated: adding the finite closed
bound 5 to an infinite bound yields the finite bound 5 again — `BAdd` does
not absorb an infinite second operand. -/
theorem claim_C7_counterexample :
    BAdd ⟨.BCLOSE, 5⟩ ⟨.BINFTY, 0⟩ = ⟨.BCLOSE, 5⟩ ∧
    (BAdd ⟨.BCLOSE, 5⟩ ⟨.BINFTY, 0⟩).kind ≠ .BINFTY := by decide

/-- Go `TimeInterval.intersectWith` (`interval.go`), ported statement by
statement; the Go method mutates `i` in place and returns an error, here we
return the final interval together with the error component. -/
def TimeInterval.intersectWith (i0 j : TimeInterval) : TimeInterval × Option String :=
  -- an uninitialized receiver (left bound infinite) first adopts j wholesale
  let i := if i0.Left.kind = .BINFTY then j else i0
  if j.Left.kind = .BINFTY then (i, some "bad time interval when computing intersection")
  else
    -- max of the left parts (Closed beats Open at equal values)
    let i : TimeInterval :=
      if j.Left.value ≥ i.Left.value ∧
          (j.Left.value > i.Left.value ∨
            (j.Left.value = i.Left.value ∧ j.Left.kind = .BOPEN)) then
        ⟨j.Left, i.Right⟩
      else i
    if j.Right.kind = .BINFTY then (i, none)
    else if i.Right.kind = .BINFTY then (⟨i.Left, j.Right⟩, none)
    else
      -- min of the right parts (Open beats Closed at equal values)
      let i : TimeInterval :=
        if j.Right.value ≤ i.Right.value ∧
            (j.Right.value < i.Right.value ∨
              (j.Right.value = i.Right.value ∧ j.Right.kind = .BOPEN)) then
          ⟨i.Left, j.Right⟩
        else i
      if i.Right.value < i.Left.value ∨
          (i.Right.value = i.Left.value ∧
            (i.Left.kind = .BOPEN ∨ i.Right.kind = .BOPEN)) then
        (i, some "empty time interval when computing intersection")
      else (i, none)

/-- **C8**.  Interval intersection: `[0,5] ∩ [2,10] = [2,5]` without error;
`[0,5[ ∩ [5,10]` reports an empty-interval error; and intersecting an
uninitialized interval (left bound infinite) with `[2,3]` yields `[2,3]`
without error. -/
theorem claim_C8_intersect_scenarios :
    TimeInterval.intersectWith ⟨⟨.BCLOSE, 0⟩, ⟨.BCLOSE, 5⟩⟩ ⟨⟨.BCLOSE, 2⟩, ⟨.BCLOSE, 10⟩⟩
      = (⟨⟨.BCLOSE, 2⟩, ⟨.BCLOSE, 5⟩⟩, none) ∧
    (TimeInterval.intersectWith ⟨⟨.BCLOSE, 0⟩, ⟨.BOPEN, 5⟩⟩
        ⟨⟨.BCLOSE, 5⟩, ⟨.BCLOSE, 10⟩⟩).snd ≠ none ∧
    TimeInterval.intersectWith ⟨⟨.BINFTY, 0⟩, ⟨.BINFTY, 0⟩⟩ ⟨⟨.BCLOSE, 2⟩, ⟨.BCLOSE, 3⟩⟩
      = (⟨⟨.BCLOSE, 2⟩, ⟨.BCLOSE, 3⟩⟩, none) := by decide


/-- Value of a run of decimal digits (most significant first). -/
def digitsVal (ds : List Char) : Nat :=
  ds.foldl (fun acc c => acc * 10 + (c.toNat - 48)) 0

/-- Outcome tag of Go `strconv` number parsing: success, a malformed
digit (`ErrSyntax`), or out of range (`ErrRange`).  The distinction
matters because on `ErrRange` Go returns the clamped value while a
malformed string yields value `0` — and `mconvert` drops some errors, so
the value returned alongside an error is observable. -/
inductive AtoiErr where
  | ok
  | badDigit
  | outOfRange
deriving DecidableEq

/-- The digit loop of Go `strconv.ParseUint(s, 10, 64)`: a non-digit
character is a syntax error with value `0`; exceeding `2^64 - 1` is a
range error with the clamped value `2^64 - 1`.  As in Go, the cutoff test
`n >= maxUint64/10 + 1` fires before the next digit is consumed, so junk
after the overflow point is never seen. -/
def parseUint64Loop : List Char → Nat → Nat × AtoiErr
  | [], n => (n, .ok)
  | c :: r, n =>
    if c.isDigit = false then (0, .badDigit)
    else if n ≥ 1844674407370955162 then (18446744073709551615, .outOfRange)
    else if n * 10 + (c.toNat - 48) > 18446744073709551615 then
      (18446744073709551615, .outOfRange)
    else parseUint64Loop r (n * 10 + (c.toNat - 48))

/-- Go `strconv.ParseUint(s, 10, 64)` on the sign-stripped string: the
empty string is a syntax error, otherwise run the digit loop. -/
def parseUint64 (s : List Char) : Nat × AtoiErr :=
  if s = [] then (0, .badDigit) else parseUint64Loop s 0

/-- The signed-range epilogue of Go `strconv.ParseInt(s, 10, 64)`: a
syntax error from `ParseUint` propagates with value `0`; an unsigned
value at or above `2^63` (strictly above for a negated one) is clamped to
the corresponding `int64` bound with a range error; otherwise the signed
value is returned without error. -/
def int64clamp (neg : Bool) (p : Nat × AtoiErr) : Int × AtoiErr :=
  if p.2 ≠ AtoiErr.ok ∧ p.2 ≠ AtoiErr.outOfRange then ((0 : Int), p.2)
  else if neg = false ∧ p.1 ≥ 9223372036854775808 then
    ((9223372036854775807 : Int), AtoiErr.outOfRange)
  else if neg = true ∧ p.1 > 9223372036854775808 then
    ((-9223372036854775808 : Int), AtoiErr.outOfRange)
  else ((if neg then -(p.1 : Int) else (p.1 : Int)), AtoiErr.ok)

/-- Model of Go `strconv.Atoi` (= `ParseInt(s, 10, 0)` with 64-bit `int`;
for short strings the fast path of `Atoi` returns the same value and
error presence): strip one optional leading `+` or `-` sign, parse the
digit run, and clamp to the `int64` range.  Unlike an `Option`-valued
model, this keeps the value Go returns **alongside** an error — `0` on a
syntax error, the clamped bound on a range error — because `mconvert`
returns that value with a nil error on its fall-through path. -/
def goAtoi (s : List Char) : Int × AtoiErr :=
  if s = [] then ((0 : Int), AtoiErr.badDigit)
  else
    int64clamp (if s.headD ' ' = '-' then true else false)
      (parseUint64 (if s.headD ' ' = '-' ∨ s.headD ' ' = '+' then s.tail else s))

/-- Wrap-around of a mathematical integer into a signed 64-bit value, the
defined behavior of Go `int` multiplication overflow. -/
def wrap64 (x : Int) : Int :=
  (x + 9223372036854775808) % 18446744073709551616 - 9223372036854775808

/-- The six SI-style multiplier suffix letters accepted by `mconvert`. -/
def isMultiplier (c : Char) : Bool :=
  c = 'K' || c = 'M' || c = 'G' || c = 'T' || c = 'P' || c = 'E'

/-- Power of 1000 associated with a multiplier letter (only consulted when
`isMultiplier` holds; the trailing branch is the `'E'` case). -/
def multiplierValue (c : Char) : Int :=
  if c = 'K' then 1000
  else if c = 'M' then 1000000
  else if c = 'G' then 1000000000
  else if c = 'T' then 1000000000000
  else if c = 'P' then 1000000000000000
  else 1000000000000000000

/-- Go `mconvert` (`parser.go`): convert marking/weight literals.  An
empty string fails; otherwise try `strconv.Atoi` on the whole string; on
failure, if the last character is a multiplier letter, parse the prefix
with `Atoi` and scale by the associated power of 1000 (64-bit
wrap-around, as in Go), failing only if that second `Atoi` fails too.
When `Atoi` fails and the last character is NOT a multiplier letter, the
Go code falls through to `return v, nil`: the error is dropped and the
value `Atoi` returned alongside it — `0` for a malformed string, the
clamped bound for an out-of-range one — is reported as a success. -/
def mconvert (s : List Char) : Except String Int :=
  if s = [] then .error "empty value in weights or marking"
  else if (goAtoi s).2 = AtoiErr.ok then .ok (goAtoi s).1
  else if isMultiplier (s.getLastD ' ') then
    if (goAtoi s.dropLast).2 = AtoiErr.ok then
      .ok (wrap64 ((goAtoi s.dropLast).1 * multiplierValue (s.getLastD ' ')))
    else .error "not a valid weight or marking"
  else .ok (goAtoi s).1

theorem isMultiplier_not_digit (c : Char) (hc : isMultiplier c = true) :
    c.isDigit = false := by
  simp only [isMultiplier, Bool.or_eq_true, decide_eq_true_eq] at hc
  rcases hc with ((((h | h) | h) | h) | h) | h <;> subst h <;> decide

theorem digits_foldl_le (ds : List Char) (n : Nat) :
    n ≤ ds.foldl (fun acc c => acc * 10 + (c.toNat - 48)) n := by
  induction ds generalizing n with
  | nil => exact Nat.le_refl n
  | cons c r ih =>
    simp only [List.foldl_cons]
    exact Nat.le_trans (by omega) (ih (n * 10 + (c.toNat - 48)))

theorem parseUint64Loop_digits (ds : List Char) :
    ∀ n : Nat, (∀ c ∈ ds, c.isDigit = true) →
      ds.foldl (fun acc c => acc * 10 + (c.toNat - 48)) n ≤ 9223372036854775807 →
      parseUint64Loop ds n
        = (ds.foldl (fun acc c => acc * 10 + (c.toNat - 48)) n, .ok) := by
  induction ds with
  | nil => intro n _ _; rfl
  | cons c r ih =>
    intro n hdig hle
    have hc : c.isDigit = true := hdig c (List.mem_cons_self c r)
    simp only [List.foldl_cons] at hle ⊢
    have hmono := digits_foldl_le r (n * 10 + (c.toNat - 48))
    simp only [parseUint64Loop]
    rw [if_neg (by simp [hc]), if_neg (by omega), if_neg (by omega)]
    exact ih (n * 10 + (c.toNat - 48))
      (fun x hx => hdig x (List.mem_cons_of_mem c hx)) hle

theorem parseUint64Loop_digits_junk (ds : List Char) (c : Char) :
    ∀ n : Nat, (∀ x ∈ ds, x.isDigit = true) → c.isDigit = false →
      ds.foldl (fun acc x => acc * 10 + (x.toNat - 48)) n ≤ 9223372036854775807 →
      parseUint64Loop (ds ++ [c]) n = (0, .badDigit) := by
  induction ds with
  | nil =>
    intro n _ hcd _
    simp only [List.nil_append, parseUint64Loop]
    rw [if_pos hcd]
  | cons d r ih =>
    intro n hdig hcd hle
    have hd : d.isDigit = true := hdig d (List.mem_cons_self d r)
    simp only [List.foldl_cons] at hle
    have hmono := digits_foldl_le r (n * 10 + (d.toNat - 48))
    simp only [List.cons_append, parseUint64Loop]
    rw [if_neg (by simp [hd]), if_neg (by omega), if_neg (by omega)]
    exact ih (n * 10 + (d.toNat - 48))
      (fun x hx => hdig x (List.mem_cons_of_mem d hx)) hcd hle

theorem int64clamp_okv (neg : Bool) (un : Nat) (h : un ≤ 9223372036854775807) :
    int64clamp neg (un, AtoiErr.ok)
      = ((if neg then -(un : Int) else (un : Int)), AtoiErr.ok) := by
  dsimp only [int64clamp]
  rw [if_neg (by simp), if_neg (fun hh => absurd hh.2 (by omega)),
    if_neg (fun hh => absurd hh.2 (by omega))]

theorem int64clamp_badv (neg : Bool) :
    int64clamp neg (0, AtoiErr.badDigit) = ((0 : Int), AtoiErr.badDigit) := by
  cases neg <;> rfl

theorem int64clamp_snd_badDigit (neg : Bool) (p : Nat × AtoiErr)
    (h : (int64clamp neg p).2 = AtoiErr.badDigit) : (int64clamp neg p).1 = 0 := by
  dsimp only [int64clamp] at h ⊢
  by_cases h1 : p.2 ≠ AtoiErr.ok ∧ p.2 ≠ AtoiErr.outOfRange
  · rw [if_pos h1]
  · rw [if_neg h1] at h ⊢
    by_cases h2 : neg = false ∧ p.1 ≥ 9223372036854775808
    · rw [if_pos h2] at h; exact AtoiErr.noConfusion h
    · rw [if_neg h2] at h ⊢
      by_cases h3 : neg = true ∧ p.1 > 9223372036854775808
      · rw [if_pos h3] at h; exact AtoiErr.noConfusion h
      · rw [if_neg h3] at h; exact AtoiErr.noConfusion h

theorem goAtoi_badDigit_val (s : List Char) (h : (goAtoi s).2 = AtoiErr.badDigit) :
    (goAtoi s).1 = 0 := by
  by_cases h0 : s = []
  · subst h0; rfl
  · unfold goAtoi at h ⊢
    rw [if_neg h0] at h ⊢
    exact int64clamp_snd_badDigit _ _ h

theorem goAtoi_digits (ds : List Char) (hne : ds ≠ [])
    (hdig : ds.all Char.isDigit = true)
    (hfit : digitsVal ds ≤ 9223372036854775807) :
    goAtoi ds = ((digitsVal ds : Int), AtoiErr.ok) := by
  obtain ⟨d, ds', rfl⟩ := List.exists_cons_of_ne_nil hne
  have hd : d.isDigit = true := by
    simpa using List.all_eq_true.1 hdig d (.head _)
  have h1 : ¬((d :: ds').headD ' ' = '-' ∨ (d :: ds').headD ' ' = '+') := by
    simp only [List.headD_cons]
    rintro (rfl | rfl) <;> simp at hd
  have h3 : ¬((d :: ds').headD ' ' = '-') := by
    simp only [List.headD_cons]
    rintro rfl; simp at hd
  have hdigs : ∀ x ∈ d :: ds', x.isDigit = true := fun x hx => by
    simpa using List.all_eq_true.1 hdig x hx
  have hp : parseUint64 (d :: ds') = (digitsVal (d :: ds'), AtoiErr.ok) := by
    unfold parseUint64 digitsVal
    rw [if_neg (List.cons_ne_nil d ds')]
    exact parseUint64Loop_digits (d :: ds') 0 hdigs
      (by unfold digitsVal at hfit; exact hfit)
  have hokv := int64clamp_okv false (digitsVal (d :: ds')) hfit
  rw [if_neg Bool.false_ne_true] at hokv
  simp only [goAtoi, if_neg (List.cons_ne_nil d ds'), if_neg h1, if_neg h3, hp, hokv]

theorem goAtoi_digits_mult (ds : List Char) (c : Char) (hne : ds ≠ [])
    (hdig : ds.all Char.isDigit = true) (hc : isMultiplier c = true)
    (hfit : digitsVal ds ≤ 9223372036854775807) :
    goAtoi (ds ++ [c]) = ((0 : Int), AtoiErr.badDigit) := by
  obtain ⟨d, ds', rfl⟩ := List.exists_cons_of_ne_nil hne
  have hd : d.isDigit = true := by
    simpa using List.all_eq_true.1 hdig d (.head _)
  have hcd : c.isDigit = false := isMultiplier_not_digit c hc
  have h1 : ¬(((d :: ds') ++ [c]).headD ' ' = '-' ∨ ((d :: ds') ++ [c]).headD ' ' = '+') := by
    simp only [List.cons_append, List.headD_cons]
    rintro (rfl | rfl) <;> simp at hd
  have h3 : ¬(((d :: ds') ++ [c]).headD ' ' = '-') := by
    simp only [List.cons_append, List.headD_cons]
    rintro rfl; simp at hd
  have hdigs : ∀ x ∈ d :: ds', x.isDigit = true := fun x hx => by
    simpa using List.all_eq_true.1 hdig x hx
  have hp : parseUint64 ((d :: ds') ++ [c]) = (0, AtoiErr.badDigit) := by
    unfold parseUint64
    rw [if_neg (by simp)]
    exact parseUint64Loop_digits_junk (d :: ds') c 0 hdigs hcd
      (by unfold digitsVal at hfit; exact hfit)
  simp only [goAtoi, if_neg (by simp : ¬((d :: ds') ++ [c] = ([] : List Char))),
    if_neg h1, if_neg h3, hp, int64clamp_badv false]

/-- **C9** (amended).  `mconvert` reports an error exactly when the input
is empty, or when the whole input fails `strconv.Atoi`, its last character
is a multiplier letter `K`, `M`, `G`, `T`, `P`, `E`, and the prefix before
that letter fails `Atoi` too.  Contrary to the claim, every OTHER input
rejected by `Atoi` is accepted silently: when `Atoi` fails and the last
character is not a multiplier letter, the Go code falls through to
`return v, nil` (`parser.go`), dropping the error and returning the value
`Atoi` produced alongside it — in particular a malformed string with no
trailing multiplier letter yields value `0` with a nil error.  The
claim's positive half holds: a digit run followed by one multiplier
letter yields the parsed digits times the corresponding power of 1000,
wrapped to 64 bits, and a plain in-range digit run yields its value. -/
theorem claim_C9_mconvert (s ds : List Char) (c : Char)
    (hds : ds ≠ []) (hdig : ds.all Char.isDigit = true) (hc : isMultiplier c = true)
    (hfit : digitsVal ds ≤ 9223372036854775807) :
    ((mconvert s).isOk = false ↔
      s = [] ∨ ((goAtoi s).2 ≠ AtoiErr.ok ∧ isMultiplier (s.getLastD ' ') = true ∧
        (goAtoi s.dropLast).2 ≠ AtoiErr.ok)) ∧
    (s ≠ [] → (goAtoi s).2 = AtoiErr.badDigit → isMultiplier (s.getLastD ' ') = false →
      mconvert s = .ok 0) ∧
    mconvert (ds ++ [c]) = .ok (wrap64 ((digitsVal ds : Int) * multiplierValue c)) ∧
    mconvert ds = .ok ((digitsVal ds : Int)) := by
  refine ⟨?_, ?_, ?_, ?_⟩
  · by_cases hs : s = []
    · subst hs
      constructor
      · intro _; exact Or.inl rfl
      · intro _; rfl
    · unfold mconvert
      rw [if_neg hs]
      by_cases hok : (goAtoi s).2 = AtoiErr.ok
      · rw [if_pos hok]
        constructor
        · intro h; exact Bool.noConfusion h
        · rintro (h | ⟨h1, _, _⟩)
          · exact absurd h hs
          · exact absurd hok h1
      · rw [if_neg hok]
        by_cases hm : isMultiplier (s.getLastD ' ') = true
        · rw [if_pos hm]
          by_cases h2 : (goAtoi s.dropLast).2 = AtoiErr.ok
          · rw [if_pos h2]
            constructor
            · intro h; exact Bool.noConfusion h
            · rintro (h | ⟨_, _, h3⟩)
              · exact absurd h hs
              · exact absurd h2 h3
          · rw [if_neg h2]
            constructor
            · intro _; exact Or.inr ⟨hok, hm, h2⟩
            · intro _; rfl
        · rw [if_neg hm]
          constructor
          · intro h; exact Bool.noConfusion h
          · rintro (h | ⟨_, h1, _⟩)
            · exact absurd h hs
            · exact absurd h1 hm
  · intro hs hbad hmul
    unfold mconvert
    rw [if_neg hs,
      if_neg (fun h => by rw [h] at hbad; exact AtoiErr.noConfusion hbad),
      if_neg (fun h => by rw [hmul] at h; exact Bool.noConfusion h),
      goAtoi_badDigit_val s hbad]
  · have hne2 : ds ++ [c] ≠ [] := by simp
    have hlast : (ds ++ [c]).getLastD ' ' = c := by
      rw [List.getLastD_eq_getLast?, List.getLast?_append_cons]
      rfl
    have hdrop : (ds ++ [c]).dropLast = ds := by
      rw [List.dropLast_append_cons]
      simp
    have hga := goAtoi_digits_mult ds c hds hdig hc hfit
    have hgb := goAtoi_digits ds hds hdig hfit
    unfold mconvert
    rw [if_neg hne2,
      if_neg (by rw [hga]; exact fun h => AtoiErr.noConfusion h),
      hlast, if_pos hc, hdrop, hgb, if_pos rfl]
  · have hgb := goAtoi_digits ds hds hdig hfit
    unfold mconvert
    rw [if_neg hds, hgb, if_pos rfl]

/-- **C9**, witness for the amended theorem at concrete inputs
(`s = "12"`, `ds = "3"`, `c = 'K'`). -/
theorem claim_C9_witness :
    (((mconvert ['1', '2']).isOk = false ↔
      ['1', '2'] = ([] : List Char) ∨
      ((goAtoi ['1', '2']).2 ≠ AtoiErr.ok ∧
        isMultiplier (['1', '2'].getLastD ' ') = true ∧
        (goAtoi ['1', '2'].dropLast).2 ≠ AtoiErr.ok)) ∧
    (['1', '2'] ≠ ([] : List Char) → (goAtoi ['1', '2']).2 = AtoiErr.badDigit →
      isMultiplier (['1', '2'].getLastD ' ') = false → mconvert ['1', '2'] = .ok 0) ∧
    mconvert (['3'] ++ ['K']) = .ok (wrap64 ((digitsVal ['3'] : Int) * multiplierValue 'K')) ∧
    mconvert ['3'] = .ok ((digitsVal ['3'] : Int))) :=
  claim_C9_mconvert ['1', '2'] ['3'] 'K' (by decide) (by decide) (by decide) (by decide)

/-- **C9**, counterexample to the claim as stated: the input `"-5"` is
non-empty, carries no trailing multiplier letter, and its characters are
not a run of digits (`'-'` is not a digit), so the claim requires an
error — but `mconvert` succeeds with value `-5`, because Go's
`strconv.Atoi` accepts a leading sign. -/
theorem claim_C9_counterexample :
    (['-', '5'].all Char.isDigit) = false ∧
    isMultiplier '5' = false ∧
    mconvert ['-', '5'] = .ok (-5) := by decide

/-- Go `setAdd` (`parser.go`): insert `v` into a sorted duplicate-free
slice of transition indices, keeping it sorted. -/
def setAdd : List Nat → Nat → List Nat
  | [], v => [v]
  | a :: r, v => if a = v then a :: r else if a > v then v :: a :: r else a :: setAdd r v

/-- Go `setUnion` (`parser.go`): start from a copy of `s1` and `setAdd`
every element of `s2`. -/
def setUnion (s1 s2 : List Nat) : List Nat := s2.foldl setAdd s1

/-- Modelled from the spec: the helper `setIncluded(s1, s2)` called by
`PrioClosure` is not among the provided source files; per the spec a
transition is moved to `done` when "its entire direct `Prio` list is
already a subset of `done`", so `setIncluded` tests that every element of
`s1` occurs in `s2`. -/
def setIncluded (s1 s2 : List Nat) : Bool := s1.all (fun v => decide (v ∈ s2))

/-- Modelled from the spec: the helper `setMember(s, v)` is not among the
provided source files; its only call site is the test
`setMember(net.Prio[t], t) >= 0` detecting "a reflexive entry (`t`
lower-priority than itself)", so it returns a non-negative index exactly
when the element occurs, and a negative value otherwise. -/
def setMember (s : List Nat) (v : Nat) : Int :=
  if v ∈ s then (s.indexOf v : Int) else -1

theorem setAdd_mem : ∀ (s : List Nat) (v x : Nat), x ∈ setAdd s v ↔ x = v ∨ x ∈ s
  | [], v, x => by simp [setAdd]
  | a :: r, v, x => by
    by_cases h1 : a = v
    · simp only [setAdd, if_pos h1, List.mem_cons]
      subst h1
      tauto
    · by_cases h2 : a > v
      · simp [setAdd, if_neg h1, if_pos h2]
      · simp only [setAdd, if_neg h1, if_neg h2, List.mem_cons, setAdd_mem r v x]
        tauto

theorem setAdd_pairwise :
    ∀ (s : List Nat) (v : Nat), s.Pairwise (· < ·) → (setAdd s v).Pairwise (· < ·)
  | [], v, _ => by simp [setAdd]
  | a :: r, v, h => by
    rw [List.pairwise_cons] at h
    by_cases h1 : a = v
    · simp only [setAdd, if_pos h1]
      rw [List.pairwise_cons]
      exact h
    · by_cases h2 : a > v
      · simp only [setAdd, if_neg h1, if_pos h2]
        rw [List.pairwise_cons, List.pairwise_cons]
        refine ⟨?_, h⟩
        intro b hb
        rw [List.mem_cons] at hb
        rcases hb with hb | hb
        · omega
        · have := h.1 b hb
          omega
      · simp only [setAdd, if_neg h1, if_neg h2]
        rw [List.pairwise_cons]
        refine ⟨?_, setAdd_pairwise r v h.2⟩
        intro b hb
        rw [setAdd_mem r v b] at hb
        rcases hb with hb | hb
        · omega
        · exact h.1 b hb

theorem setAdd_length_not_mem :
    ∀ (s : List Nat) (v : Nat), v ∉ s → (setAdd s v).length = s.length + 1
  | [], v, _ => by simp [setAdd]
  | a :: r, v, h => by
    rw [List.mem_cons] at h
    push_neg at h
    have h1 : ¬ a = v := fun hh => h.1 hh.symm
    by_cases h2 : a > v
    · simp [setAdd, if_neg h1, if_pos h2]
    · simp only [setAdd, if_neg h1, if_neg h2, List.length_cons]
      rw [setAdd_length_not_mem r v h.2]

theorem setAdd_length_mem :
    ∀ (s : List Nat) (v : Nat), s.Pairwise (· < ·) → v ∈ s → setAdd s v = s
  | [], v, _, hv => by simp at hv
  | a :: r, v, hs, hv => by
    rw [List.pairwise_cons] at hs
    by_cases h1 : a = v
    · simp only [setAdd, if_pos h1]
    · have hvr : v ∈ r := by
        rw [List.mem_cons] at hv
        tauto
      have h2 : ¬ a > v := by
        have := hs.1 v hvr
        omega
      simp only [setAdd, if_neg h1, if_neg h2, List.cons.injEq, true_and]
      exact setAdd_length_mem r v hs.2 hvr

theorem setUnion_mem (s1 s2 : List Nat) (x : Nat) :
    x ∈ setUnion s1 s2 ↔ x ∈ s1 ∨ x ∈ s2 := by
  unfold setUnion
  induction s2 generalizing s1 with
  | nil => simp
  | cons a r ih =>
    rw [List.foldl_cons, ih (setAdd s1 a), setAdd_mem, List.mem_cons]
    tauto

theorem setUnion_pairwise (s1 s2 : List Nat) (h : s1.Pairwise (· < ·)) :
    (setUnion s1 s2).Pairwise (· < ·) := by
  unfold setUnion
  induction s2 generalizing s1 with
  | nil => exact h
  | cons a r ih => exact ih (setAdd s1 a) (setAdd_pairwise s1 a h)

theorem setIncluded_iff (s1 s2 : List Nat) :
    setIncluded s1 s2 = true ↔ ∀ v ∈ s1, v ∈ s2 := by
  simp [setIncluded]

theorem setMember_nonneg (s : List Nat) (v : Nat) :
    0 ≤ setMember s v ↔ v ∈ s := by
  unfold setMember
  split
  · rename_i h
    simp only [iff_true, h]
    positivity
  · rename_i h
    simp [h]

/-- The inner loop of `PrioClosure`:
`for _, v := range net.Prio[t] { net.Prio[t] = setUnion(net.Prio[t], net.Prio[v]) }`.
Go's `range` evaluates the ranged slice once, so the iteration is over the
list held in entry `t` at loop entry, while each union reads the current
state. -/
def closeOne (prio : List (List Nat)) (t : Nat) : List (List Nat) :=
  (prio.getD t []).foldl
    (fun pr v => pr.set t (setUnion (pr.getD t []) (pr.getD v []))) prio

/-- One iteration of the pass body of `PrioClosure`: a transition `t` of
`work` whose whole current direct list is included in the pass-entry `done`
is closed in place and added to `donen`; otherwise it is kept in `workn`.
The state is `(Prio, donen, workn)`. -/
def passStep (done : List Nat) (st : List (List Nat) × List Nat × List Nat)
    (t : Nat) : List (List Nat) × List Nat × List Nat :=
  if setIncluded (st.1.getD t []) done = true then
    (closeOne st.1 t, setAdd st.2.1 t, st.2.2)
  else (st.1, st.2.1, setAdd st.2.2 t)

/-- One pass of the `PrioClosure` loop over the whole `work` list
(`donen` starts as a copy of `done`, `workn` starts empty). -/
def prioPass (prio : List (List Nat)) (done work : List Nat) :
    List (List Nat) × List Nat × List Nat :=
  work.foldl (passStep done) (prio, done, [])

/-- The `for {}` loop of `PrioClosure`.  Go's loop terminates because a
pass that does not strictly shrink `work` returns the cycle error, so fuel
`work.length + 1` is never exhausted (the fuel branch is unreachable; see
the closure theorems). -/
def prioLoop : Nat → List (List Nat) → List Nat → List Nat →
    Except String (List (List Nat))
  | 0, _, _, _ => .error "fuel exhausted"
  | fuel + 1, prio, done, work =>
    if work = [] then .ok prio
    else
      let res := prioPass prio done work
      if res.2.2.length = work.length then
        if work.any (fun t => decide (0 ≤ setMember (res.1.getD t []) t)) then
          .error "cyclic dependencies in priority for t"
        else .error "cyclic dependencies between priorities"
      else prioLoop fuel res.1 res.2.1 res.2.2

/-- Go `Net.PrioClosure` (`nets.go`).  Only `len(net.Tr)` (here `n`) and
the `Prio` field (here `prio`) are relevant; the function returns the
transitively closed `Prio` or a cycle error.  First classify transitions
into `done` (empty direct list) and `work` (the rest), then iterate. -/
def PrioClosure (n : Nat) (prio : List (List Nat)) :
    Except String (List (List Nat)) :=
  let dw := (List.range prio.length).foldl
    (fun dw k =>
      if prio.getD k [] = [] then (setAdd dw.1 k, dw.2) else (dw.1, setAdd dw.2 k))
    ([], [])
  if dw.1.length = n then .ok prio
  else if dw.1.length = 0 then .error "problem with priorities, no minimal elements"
  else prioLoop (dw.2.length + 1) prio dw.1 dw.2

/-- The direct (declared) priority relation of a `Prio` table: `prioR prio
t u` holds when `u` is listed in the direct lower-priority list of `t`. -/
def prioR (prio : List (List Nat)) (t u : Nat) : Prop := u ∈ prio.getD t []

theorem getD_set_self (l : List (List Nat)) (i : Nat) (a : List Nat)
    (h : i < l.length) : (l.set i a).getD i [] = a := by
  rw [List.getD_eq_getElem?_getD, List.getElem?_set_self]
  · rfl
  · simpa using h

theorem getD_set_ne (l : List (List Nat)) (i j : Nat) (a : List Nat)
    (h : i ≠ j) : (l.set i a).getD j [] = l.getD j [] := by
  rw [List.getD_eq_getElem?_getD, List.getElem?_set_ne h, ← List.getD_eq_getElem?_getD]

theorem getD_of_le (l : List (List Nat)) (i : Nat) (h : l.length ≤ i) :
    l.getD i [] = [] := by
  rw [List.getD_eq_getElem?_getD, List.getElem?_eq_none]
  · rfl
  · exact h

theorem foldl_setUnion_set :
    ∀ (vs : List Nat) (pr : List (List Nat)) (t : Nat) (L : List Nat),
      t < pr.length → t ∉ vs →
      vs.foldl (fun p v => p.set t (setUnion (p.getD t []) (p.getD v []))) (pr.set t L)
        = pr.set t (vs.foldl (fun acc v => setUnion acc (pr.getD v [])) L)
  | [], pr, t, L, _, _ => rfl
  | v :: vs, pr, t, L, ht, hvs => by
    have hvt : v ≠ t := by
      rintro rfl
      exact hvs (.head _)
    rw [List.foldl_cons, List.foldl_cons,
      getD_set_self pr t L ht, getD_set_ne pr t v L (Ne.symm hvt), List.set_set]
    exact foldl_setUnion_set vs pr t (setUnion L (pr.getD v [])) ht
      (fun h => hvs (List.mem_cons_of_mem v h))

theorem closeOne_eq (pr : List (List Nat)) (t : Nat)
    (ht : t < pr.length) (hvt : t ∉ pr.getD t []) (hne : pr.getD t [] ≠ []) :
    closeOne pr t =
      pr.set t ((pr.getD t []).foldl (fun acc v => setUnion acc (pr.getD v [])) (pr.getD t [])) := by
  unfold closeOne
  obtain ⟨v, vs, hvvs⟩ := List.exists_cons_of_ne_nil hne
  rw [hvvs] at hvt ⊢
  have hvt' : v ≠ t := by
    rintro rfl
    exact hvt (.head _)
  rw [List.foldl_cons, List.foldl_cons, hvvs]
  rw [← foldl_setUnion_set vs pr t (setUnion (v :: vs) (pr.getD v []))
    ht (fun h => hvt (List.mem_cons_of_mem v h))]

theorem foldl_setUnion_mem (vs : List Nat) (pr : List (List Nat)) (L : List Nat)
    (x : Nat) :
    x ∈ vs.foldl (fun acc v => setUnion acc (pr.getD v [])) L ↔
      x ∈ L ∨ ∃ v ∈ vs, x ∈ pr.getD v [] := by
  induction vs generalizing L with
  | nil => simp
  | cons v vs ih =>
    rw [List.foldl_cons, ih, setUnion_mem]
    constructor
    · rintro ((h | h) | ⟨w, hw, hx⟩)
      · exact Or.inl h
      · exact Or.inr ⟨v, .head _, h⟩
      · exact Or.inr ⟨w, List.mem_cons_of_mem v hw, hx⟩
    · rintro (h | ⟨w, hw, hx⟩)
      · exact Or.inl (Or.inl h)
      · rw [List.mem_cons] at hw
        rcases hw with hw | hw
        · subst hw; exact Or.inl (Or.inr hx)
        · exact Or.inr ⟨w, hw, hx⟩

theorem closeOne_length (pr : List (List Nat)) (t : Nat) :
    (closeOne pr t).length = pr.length := by
  unfold closeOne
  generalize pr.getD t [] = vs
  induction vs generalizing pr with
  | nil => rfl
  | cons v vs ih =>
    rw [List.foldl_cons, ih]
    simp

theorem closeOne_getD_ne (pr : List (List Nat)) (t s : Nat) (hst : s ≠ t) :
    (closeOne pr t).getD s [] = pr.getD s [] := by
  unfold closeOne
  generalize pr.getD t [] = vs
  induction vs generalizing pr with
  | nil => rfl
  | cons v vs ih =>
    rw [List.foldl_cons, ih]
    exact getD_set_ne _ t s _ (Ne.symm hst)

theorem closeOne_getD_self (pr : List (List Nat)) (t : Nat)
    (ht : t < pr.length) (hvt : t ∉ pr.getD t []) (hne : pr.getD t [] ≠ []) (x : Nat) :
    x ∈ (closeOne pr t).getD t [] ↔
      x ∈ pr.getD t [] ∨ ∃ v ∈ pr.getD t [], x ∈ pr.getD v [] := by
  rw [closeOne_eq pr t ht hvt hne, getD_set_self _ _ _ ht, foldl_setUnion_mem]

/-- Invariant of the `done` side of `PrioClosure`: the table has the
original length, `done` is a sorted set of transition indices that are
accessible in the declared priority relation (no cycle through them), and
the entry of every `done` transition is transitively closed and points only
into `done`. -/
def CloseInv (n : Nat) (prio₀ pr : List (List Nat)) (dn : List Nat) : Prop :=
  pr.length = prio₀.length ∧
  dn.Pairwise (· < ·) ∧
  (∀ t ∈ dn, t < n) ∧
  (∀ t ∈ dn, Acc (fun u t' => prioR prio₀ t' u) t) ∧
  (∀ t ∈ dn, ∀ u ∈ pr.getD t [], u ∈ dn ∧ ∀ x ∈ pr.getD u [], x ∈ pr.getD t [])

/-- Invariant of the `work` side: entries of transitions still in `work`
are untouched (and were non-empty at classification time). -/
def WorkInv (prio₀ pr : List (List Nat)) (wk : List Nat) : Prop :=
  ∀ t ∈ wk, pr.getD t [] = prio₀.getD t [] ∧ prio₀.getD t [] ≠ []

theorem close_step (n : Nat) (prio₀ : List (List Nat)) (hn : prio₀.length = n)
    (done : List Nat) (pr : List (List Nat)) (dn : List Nat) (t : Nat)
    (hC : CloseInv n prio₀ pr dn) (ht : t < n) (htdn : t ∉ dn)
    (hentry : pr.getD t [] = prio₀.getD t []) (hnet : prio₀.getD t [] ≠ [])
    (incl : ∀ v ∈ pr.getD t [], v ∈ done) (hsub : ∀ v ∈ done, v ∈ dn) :
    CloseInv n prio₀ (closeOne pr t) (setAdd dn t) := by
  obtain ⟨hlen, hdnp, hdnlt, hacc, hclo⟩ := hC
  have htpr : t < pr.length := by omega
  have hvt : t ∉ pr.getD t [] := fun h => htdn (hsub _ (incl _ h))
  have hnet' : pr.getD t [] ≠ [] := by rw [hentry]; exact hnet
  have hself := closeOne_getD_self pr t htpr hvt hnet'
  have hother := closeOne_getD_ne pr t
  refine ⟨by rw [closeOne_length]; exact hlen, setAdd_pairwise dn t hdnp, ?_, ?_, ?_⟩
  · intro s hs
    rw [setAdd_mem] at hs
    rcases hs with hs | hs
    · omega
    · exact hdnlt s hs
  · intro s hs
    rw [setAdd_mem] at hs
    rcases hs with hs | hs
    · subst hs
      refine Acc.intro s (fun u hu => ?_)
      have : u ∈ pr.getD s [] := by rw [hentry]; exact hu
      exact hacc u (hsub u (incl u this))
    · exact hacc s hs
  · intro s hs u hu
    rw [setAdd_mem] at hs
    rcases hs with hs | hs
    · subst hs
      rw [hself u] at hu
      rcases hu with hu | ⟨v, hv, huv⟩
      · have hudn : u ∈ dn := hsub u (incl u hu)
        have hut : u ≠ s := fun h => htdn (h ▸ hudn)
        refine ⟨by rw [setAdd_mem]; exact Or.inr hudn, ?_⟩
        intro x hx
        rw [hother u hut] at hx
        rw [hself x]
        exact Or.inr ⟨u, hu, hx⟩
      · have hvdn : v ∈ dn := hsub v (incl v hv)
        obtain ⟨hudn, husub⟩ := hclo v hvdn u huv
        have hut : u ≠ s := fun h => htdn (h ▸ hudn)
        refine ⟨by rw [setAdd_mem]; exact Or.inr hudn, ?_⟩
        intro x hx
        rw [hother u hut] at hx
        rw [hself x]
        exact Or.inr ⟨v, hv, husub x hx⟩
    · have hst : s ≠ t := fun h => htdn (h ▸ hs)
      rw [hother s hst] at hu
      obtain ⟨hudn, husub⟩ := hclo s hs u hu
      have hut : u ≠ t := fun h => htdn (h ▸ hudn)
      refine ⟨by rw [setAdd_mem]; exact Or.inr hudn, ?_⟩
      intro x hx
      rw [hother u hut] at hx
      rw [hother s hst]
      exact husub x hx

theorem pass_spec (n : Nat) (prio₀ : List (List Nat)) (hn : prio₀.length = n)
    (done : List Nat) :
    ∀ (Q : List Nat) (pr : List (List Nat)) (dn wn : List Nat),
      Q.Pairwise (· < ·) → (∀ t ∈ Q, t < n) →
      (∀ t ∈ Q, t ∉ dn) → (∀ t ∈ Q, t ∉ wn) →
      wn.Pairwise (· < ·) →
      (∀ t, ¬(t ∈ dn ∧ t ∈ wn)) →
      (∀ v ∈ done, v ∈ dn) →
      CloseInv n prio₀ pr dn →
      (∀ t ∈ Q, pr.getD t [] = prio₀.getD t [] ∧ prio₀.getD t [] ≠ []) →
      WorkInv prio₀ pr wn →
      CloseInv n prio₀ (Q.foldl (passStep done) (pr, dn, wn)).1
          (Q.foldl (passStep done) (pr, dn, wn)).2.1 ∧
      WorkInv prio₀ (Q.foldl (passStep done) (pr, dn, wn)).1
          (Q.foldl (passStep done) (pr, dn, wn)).2.2 ∧
      (Q.foldl (passStep done) (pr, dn, wn)).2.2.Pairwise (· < ·) ∧
      (∀ v ∈ dn, v ∈ (Q.foldl (passStep done) (pr, dn, wn)).2.1) ∧
      (∀ v ∈ wn, v ∈ (Q.foldl (passStep done) (pr, dn, wn)).2.2) ∧
      (∀ t, t ∈ (Q.foldl (passStep done) (pr, dn, wn)).2.1 ∨
            t ∈ (Q.foldl (passStep done) (pr, dn, wn)).2.2 ↔
            t ∈ dn ∨ t ∈ wn ∨ t ∈ Q) ∧
      (∀ t, ¬(t ∈ (Q.foldl (passStep done) (pr, dn, wn)).2.1 ∧
              t ∈ (Q.foldl (passStep done) (pr, dn, wn)).2.2)) ∧
      (Q.foldl (passStep done) (pr, dn, wn)).2.1.length +
          (Q.foldl (passStep done) (pr, dn, wn)).2.2.length
        = dn.length + wn.length + Q.length ∧
      (∀ t ∈ Q, t ∈ (Q.foldl (passStep done) (pr, dn, wn)).2.2 ↔
          setIncluded (prio₀.getD t []) done = false)
  | [], pr, dn, wn, _, _, _, _, hwnp, hdisj, _, hC, _, hW => by
    refine ⟨hC, hW, hwnp, fun v hv => hv, fun v hv => hv, fun t => by simp, hdisj, by simp, by simp⟩
  | t :: Q, pr, dn, wn, hQp, hQlt, hQdn, hQwn, hwnp, hdisj, hsub, hC, hT, hW => by
    rw [List.pairwise_cons] at hQp
    have htlt : t < n := hQlt t (.head _)
    have htdn : t ∉ dn := hQdn t (.head _)
    have htwn : t ∉ wn := hQwn t (.head _)
    obtain ⟨hentry, hnet⟩ := hT t (.head _)
    rw [List.foldl_cons]
    by_cases hinc : setIncluded ((pr, dn, wn).1.getD t []) done = true
    · -- t is closed and moved to donen
      have hstep : passStep done (pr, dn, wn) t = (closeOne pr t, setAdd dn t, wn) := by
        unfold passStep
        rw [if_pos hinc]
      rw [hstep]
      have incl : ∀ v ∈ pr.getD t [], v ∈ done :=
        (setIncluded_iff _ _).1 hinc
      have hC' : CloseInv n prio₀ (closeOne pr t) (setAdd dn t) :=
        close_step n prio₀ hn done pr dn t hC htlt htdn hentry hnet incl hsub
      have hother := closeOne_getD_ne pr t
      have ih := pass_spec n prio₀ hn done Q (closeOne pr t) (setAdd dn t) wn
        hQp.2 (fun s hs => hQlt s (List.mem_cons_of_mem t hs))
        (fun s hs hmem => by
          rw [setAdd_mem] at hmem
          rcases hmem with hmem | hmem
          · exact absurd hmem.symm (ne_of_lt (hQp.1 s hs))
          · exact hQdn s (List.mem_cons_of_mem t hs) hmem)
        (fun s hs => hQwn s (List.mem_cons_of_mem t hs))
        hwnp
        (fun s hmem => by
          rw [setAdd_mem] at hmem
          rcases hmem with ⟨hmem, hmem2⟩
          rcases hmem with hmem | hmem
          · subst hmem; exact htwn hmem2
          · exact hdisj s ⟨hmem, hmem2⟩)
        (fun v hv => by rw [setAdd_mem]; exact Or.inr (hsub v hv))
        hC'
        (fun s hs => by
          have hst : s ≠ t := ne_of_gt (hQp.1 s hs)
          rw [hother s hst]
          exact hT s (List.mem_cons_of_mem t hs))
        (fun s hs => by
          have hst : s ≠ t := fun h => htwn (h ▸ hs)
          rw [hother s hst]
          exact hW s hs)
      obtain ⟨i1, i2, i3, i4, i5, i6, i7, i8, i9⟩ := ih
      refine ⟨i1, i2, i3, ?_, i5, ?_, i7, ?_, ?_⟩
      · intro v hv
        exact i4 v (by rw [setAdd_mem]; exact Or.inr hv)
      · intro s
        rw [i6 s, setAdd_mem, List.mem_cons]
        tauto
      · rw [i8, setAdd_length_not_mem dn t htdn]
        simp only [List.length_cons]
        omega
      · intro s hs
        rw [List.mem_cons] at hs
        rcases hs with hs | hs
        · subst hs
          have hsdn' : s ∈ (Q.foldl (passStep done) (closeOne pr s, setAdd dn s, wn)).2.1 :=
            i4 s (by rw [setAdd_mem]; exact Or.inl rfl)
          constructor
          · intro hmem
            exact absurd ⟨hsdn', hmem⟩ (i7 s)
          · intro hfalse
            rw [← hentry] at hfalse
            rw [hinc] at hfalse
            exact absurd hfalse (by simp)
        · exact i9 s hs
    · -- t stays in workn
      have hstep : passStep done (pr, dn, wn) t = (pr, dn, setAdd wn t) := by
        unfold passStep
        rw [if_neg hinc]
      rw [hstep]
      have ih := pass_spec n prio₀ hn done Q pr dn (setAdd wn t)
        hQp.2 (fun s hs => hQlt s (List.mem_cons_of_mem t hs))
        (fun s hs => hQdn s (List.mem_cons_of_mem t hs))
        (fun s hs hmem => by
          rw [setAdd_mem] at hmem
          rcases hmem with hmem | hmem
          · exact absurd hmem.symm (ne_of_lt (hQp.1 s hs))
          · exact hQwn s (List.mem_cons_of_mem t hs) hmem)
        (setAdd_pairwise wn t hwnp)
        (fun s hmem => by
          rcases hmem with ⟨hmem1, hmem2⟩
          rw [setAdd_mem] at hmem2
          rcases hmem2 with hmem2 | hmem2
          · subst hmem2; exact htdn hmem1
          · exact hdisj s ⟨hmem1, hmem2⟩)
        hsub hC
        (fun s hs => hT s (List.mem_cons_of_mem t hs))
        (fun s hs => by
          rw [setAdd_mem] at hs
          rcases hs with hs | hs
          · subst hs; exact ⟨hentry, hnet⟩
          · exact hW s hs)
      obtain ⟨i1, i2, i3, i4, i5, i6, i7, i8, i9⟩ := ih
      refine ⟨i1, i2, i3, i4, ?_, ?_, i7, ?_, ?_⟩
      · intro v hv
        exact i5 v (by rw [setAdd_mem]; exact Or.inr hv)
      · intro s
        rw [i6 s, setAdd_mem, List.mem_cons]
        tauto
      · rw [i8, setAdd_length_not_mem wn t htwn]
        simp only [List.length_cons]
        omega
      · intro s hs
        rw [List.mem_cons] at hs
        rcases hs with hs | hs
        · subst hs
          constructor
          · intro _
            cases hval : setIncluded (prio₀.getD s []) done
            · rfl
            · rw [← hentry] at hval
              exact absurd hval hinc
          · intro _
            exact i5 s (by rw [setAdd_mem]; exact Or.inl rfl)
        · exact i9 s hs

/-- In a finite set of transitions in which every member has a declared
lower-priority successor inside the set, the declared relation has a
cycle (pigeonhole on an infinite walk). -/
theorem cycle_of_all_step (prio₀ : List (List Nat)) (S : List Nat) (hS : S ≠ [])
    (hstep : ∀ t ∈ S, ∃ u, u ∈ S ∧ u ∈ prio₀.getD t []) :
    ∃ t, Relation.TransGen (prioR prio₀) t t := by
  classical
  have hstep' : ∀ t : {x // x ∈ S}, ∃ u : {x // x ∈ S}, u.1 ∈ prio₀.getD t.1 [] := by
    rintro ⟨t, ht⟩
    obtain ⟨u, hu1, hu2⟩ := hstep t ht
    exact ⟨⟨u, hu1⟩, hu2⟩
  choose g hg using hstep'
  have hhead : S.head hS ∈ S := List.head_mem hS
  set f : ℕ → {x // x ∈ S} := fun k => g^[k] ⟨S.head hS, hhead⟩ with hf
  have hedge : ∀ k, (f (k + 1)).1 ∈ prio₀.getD (f k).1 [] := by
    intro k
    have hit : f (k + 1) = g (f k) := by
      rw [hf]
      exact Function.iterate_succ_apply' g k _
    rw [hit]
    exact hg (f k)
  have hchain : ∀ i j, i < j → Relation.TransGen (prioR prio₀) (f i).1 (f j).1 := by
    intro i j hij
    induction j with
    | zero => omega
    | succ j ih =>
      rcases Nat.lt_succ_iff_lt_or_eq.1 hij with h | h
      · exact (ih h).tail (hedge j)
      · subst h
        exact .single (hedge i)
  have hcard : S.toFinset.card < (Finset.range (S.length + 1)).card := by
    rw [Finset.card_range]
    have := S.toFinset_card_le
    omega
  have hmap : ∀ k ∈ Finset.range (S.length + 1), (f k).1 ∈ S.toFinset :=
    fun k _ => List.mem_toFinset.2 (f k).2
  obtain ⟨i, _, j, _, hne, heq⟩ :=
    Finset.exists_ne_map_eq_of_card_lt_of_maps_to hcard hmap
  rcases lt_or_gt_of_ne hne with h | h
  · exact ⟨(f i).1, by
      have := hchain i j h
      rwa [show (f j).1 = (f i).1 from heq.symm] at this⟩
  · exact ⟨(f j).1, by
      have := hchain j i h
      rwa [show (f i).1 = (f j).1 from heq] at this⟩

/-- A transition accessible in the (reversed) declared relation lies on no
cycle of the declared relation. -/
theorem acc_no_cycle (prio₀ : List (List Nat)) (t : Nat)
    (h : Acc (fun u t' => prioR prio₀ t' u) t) :
    ¬ Relation.TransGen (prioR prio₀) t t := by
  induction h with
  | intro a _ ih =>
    intro hcyc
    obtain ⟨c, hac, hcb⟩ := Relation.TransGen.head'_iff.1 hcyc
    exact ih c hac (Relation.TransGen.tail' hcb hac)

/-- A transition with no declared successor lies on no cycle. -/
theorem no_edge_no_cycle (prio₀ : List (List Nat)) (t : Nat)
    (h : prio₀.getD t [] = []) : ¬ Relation.TransGen (prioR prio₀) t t := by
  intro hcyc
  obtain ⟨c, hac, _⟩ := Relation.TransGen.head'_iff.1 hcyc
  rw [prioR, h] at hac
  exact absurd hac (List.not_mem_nil c)

theorem nodup_of_sorted {A : List Nat} (h : A.Pairwise (· < ·)) : A.Nodup :=
  h.imp (fun hlt => ne_of_lt hlt)

theorem length_le_of_subset_sorted (A B : List Nat)
    (hA : A.Pairwise (· < ·)) (hsub : ∀ x ∈ A, x ∈ B) : A.length ≤ B.length := by
  classical
  have h1 : A.toFinset.card = A.length := List.toFinset_card_of_nodup (nodup_of_sorted hA)
  have h2 : B.toFinset.card ≤ B.length := B.toFinset_card_le
  have h3 : A.toFinset ⊆ B.toFinset := by
    intro x hx
    rw [List.mem_toFinset] at hx ⊢
    exact hsub x hx
  have := Finset.card_le_card h3
  omega

theorem mem_of_subset_of_length_ge (A B : List Nat)
    (hA : A.Pairwise (· < ·)) (hB : B.Pairwise (· < ·))
    (hsub : ∀ x ∈ A, x ∈ B) (hlen : B.length ≤ A.length) :
    ∀ x ∈ B, x ∈ A := by
  classical
  have h1 : A.toFinset.card = A.length := List.toFinset_card_of_nodup (nodup_of_sorted hA)
  have h2 : B.toFinset.card = B.length := List.toFinset_card_of_nodup (nodup_of_sorted hB)
  have h3 : A.toFinset ⊆ B.toFinset := by
    intro x hx
    rw [List.mem_toFinset] at hx ⊢
    exact hsub x hx
  have h4 : A.toFinset = B.toFinset :=
    Finset.eq_of_subset_of_card_le h3 (by omega)
  intro x hx
  have : x ∈ B.toFinset := List.mem_toFinset.2 hx
  rw [← h4] at this
  exact List.mem_toFinset.1 this

theorem prioLoop_spec (n : Nat) (prio₀ : List (List Nat)) (hn : prio₀.length = n)
    (V : ∀ t u, u ∈ prio₀.getD t [] → u < n) :
    ∀ (fuel : Nat) (pr : List (List Nat)) (dn wk : List Nat),
      wk.length < fuel →
      CloseInv n prio₀ pr dn →
      WorkInv prio₀ pr wk →
      wk.Pairwise (· < ·) →
      (∀ t ∈ wk, t < n) →
      (∀ t, ¬(t ∈ dn ∧ t ∈ wk)) →
      (∀ t, t < n → t ∈ dn ∨ t ∈ wk) →
      (∀ pr', prioLoop fuel pr dn wk = .ok pr' →
          (∀ t, t < n → Acc (fun u t' => prioR prio₀ t' u) t) ∧
          pr'.length = n ∧
          (∀ t u, u ∈ pr'.getD t [] → ∀ x ∈ pr'.getD u [], x ∈ pr'.getD t [])) ∧
      (∀ e, prioLoop fuel pr dn wk = .error e →
          ∃ t, Relation.TransGen (prioR prio₀) t t)
  | 0, pr, dn, wk, hfuel, _, _, _, _, _, _ => absurd hfuel (by omega)
  | fuel + 1, pr, dn, wk, hfuel, hC, hW, hwkp, hwklt, hdisj, hpart => by
    by_cases hwk : wk = []
    · subst hwk
      have heq : prioLoop (fuel + 1) pr dn [] = .ok pr := by
        simp [prioLoop]
      constructor
      · intro pr' hok
        rw [heq] at hok
        have hpr : pr = pr' := by
          injection hok
        subst hpr
        obtain ⟨hlen, _, _, hacc, hclo⟩ := hC
        refine ⟨?_, by omega, ?_⟩
        · intro t ht
          rcases hpart t ht with h | h
          · exact hacc t h
          · exact absurd h (List.not_mem_nil t)
        · intro t u hu x hx
          by_cases htdn : t ∈ dn
          · obtain ⟨hudn, hsub⟩ := hclo t htdn u hu
            exact hsub x hx
          · have htn : ¬ t < n := by
              intro hlt
              rcases hpart t hlt with h | h
              · exact htdn h
              · exact absurd h (List.not_mem_nil t)
            rw [getD_of_le pr t (by omega)] at hu
            exact absurd hu (List.not_mem_nil u)
      · intro e he
        rw [heq] at he
        exact Except.noConfusion he
    · have hT : ∀ t ∈ wk, pr.getD t [] = prio₀.getD t [] ∧ prio₀.getD t [] ≠ [] := hW
      have hps := pass_spec n prio₀ hn dn wk pr dn []
        hwkp hwklt
        (fun t ht hmem => hdisj t ⟨hmem, ht⟩)
        (fun t _ hmem => absurd hmem (List.not_mem_nil t))
        List.Pairwise.nil
        (fun t ⟨_, hmem⟩ => absurd hmem (List.not_mem_nil t))
        (fun v hv => hv)
        hC hT
        (fun t hmem => absurd hmem (List.not_mem_nil t))
      obtain ⟨i1, i2, i3, i4, _, i6, i7, i8, i9⟩ := hps
      have hres : prioPass pr dn wk = wk.foldl (passStep dn) (pr, dn, []) := rfl
      rw [← hres] at i1 i2 i3 i4 i6 i7 i8 i9
      have hr22wk : ∀ t ∈ (prioPass pr dn wk).2.2, t ∈ wk := by
        intro t ht
        have := (i6 t).1 (Or.inr ht)
        rcases this with h | h | h
        · exact absurd ⟨i4 t h, ht⟩ (i7 t)
        · exact absurd h (List.not_mem_nil t)
        · exact h
      by_cases hlen : (prioPass pr dn wk).2.2.length = wk.length
      · have heq : prioLoop (fuel + 1) pr dn wk =
            (if wk.any (fun t => decide (0 ≤ setMember ((prioPass pr dn wk).1.getD t []) t))
              then Except.error "cyclic dependencies in priority for t"
              else Except.error "cyclic dependencies between priorities") := by
          simp only [prioLoop, if_neg hwk, hlen, if_pos, if_true]
        have hcyc : ∃ t, Relation.TransGen (prioR prio₀) t t := by
          have hwkr22 : ∀ t ∈ wk, t ∈ (prioPass pr dn wk).2.2 :=
            mem_of_subset_of_length_ge _ wk i3 hwkp hr22wk (by omega)
          refine cycle_of_all_step prio₀ wk hwk ?_
          intro t ht
          have hinc := (i9 t ht).1 (hwkr22 t ht)
          have : ¬ ∀ v ∈ prio₀.getD t [], v ∈ dn := fun hall => by
            have hb := (setIncluded_iff _ _).2 hall
            rw [hinc] at hb
            exact Bool.noConfusion hb
          push_neg at this
          obtain ⟨u, hu, hudn⟩ := this
          have hun : u < n := V t u hu
          rcases hpart u hun with h | h
          · exact absurd h hudn
          · exact ⟨u, h, hu⟩
        constructor
        · intro pr' hok
          rw [heq] at hok
          by_cases hany : wk.any (fun t => decide (0 ≤ setMember ((prioPass pr dn wk).1.getD t []) t)) = true
          · rw [if_pos hany] at hok
            exact Except.noConfusion hok
          · rw [if_neg hany] at hok
            exact Except.noConfusion hok
        · intro e _
          exact hcyc
      · have heq : prioLoop (fuel + 1) pr dn wk =
            prioLoop fuel (prioPass pr dn wk).1 (prioPass pr dn wk).2.1
              (prioPass pr dn wk).2.2 := by
          simp only [prioLoop, if_neg hwk, hlen, if_neg, if_false]
        have hdnsub : dn.length ≤ (prioPass pr dn wk).2.1.length :=
          length_le_of_subset_sorted dn _ hC.2.1 i4
      -- the new work list is strictly shorter
        have hr22len : (prioPass pr dn wk).2.2.length < wk.length := by
          have h8 := i8
          simp only [List.length_nil] at h8
          omega
        have ih := prioLoop_spec n prio₀ hn V fuel
          (prioPass pr dn wk).1 (prioPass pr dn wk).2.1 (prioPass pr dn wk).2.2
          (by omega) i1 i2 i3
          (fun t ht => by
            rcases (i6 t).1 (Or.inr ht) with h | h | h
            · exact hC.2.2.1 t h
            · exact absurd h (List.not_mem_nil t)
            · exact hwklt t h)
          i7
          (fun t htn => by
            rcases hpart t htn with h | h
            · exact Or.inl (i4 t h)
            · exact (i6 t).2 (Or.inr (Or.inr h)))
        rw [heq]
        exact ih

theorem filter_length_eq_all (p : Nat → Bool) (l : List Nat)
    (h : (l.filter p).length = l.length) : ∀ a ∈ l, p a := by
  induction l with
  | nil => simp
  | cons a l ih =>
    by_cases hp : p a
    · intro x hx
      rw [List.mem_cons] at hx
      rcases hx with hx | hx
      · subst hx; exact hp
      · refine ih ?_ x hx
        rw [List.filter_cons_of_pos hp] at h
        simpa using h
    · exfalso
      rw [List.filter_cons_of_neg hp] at h
      have := List.length_filter_le p l
      simp at h
      omega

theorem setAdd_append_of_lt :
    ∀ (s : List Nat) (v : Nat), (∀ x ∈ s, x < v) → setAdd s v = s ++ [v]
  | [], v, _ => by simp [setAdd]
  | a :: r, v, h => by
    have h1 : ¬ a = v := ne_of_lt (h a (.head _))
    have h2 : ¬ a > v := by
      have := h a (.head _)
      omega
    simp only [setAdd, if_neg h1, if_neg h2, List.cons_append, List.cons.injEq, true_and]
    exact setAdd_append_of_lt r v (fun x hx => h x (List.mem_cons_of_mem a hx))

theorem classify_spec (prio : List (List Nat)) :
    ∀ (ks : List Nat) (d w : List Nat),
      ks.Pairwise (· < ·) →
      (∀ x ∈ d, ∀ k ∈ ks, x < k) → (∀ x ∈ w, ∀ k ∈ ks, x < k) →
      ks.foldl
        (fun dw k =>
          if prio.getD k [] = [] then (setAdd dw.1 k, dw.2) else (dw.1, setAdd dw.2 k))
        (d, w)
        = (d ++ ks.filter (fun k => decide (prio.getD k [] = [])),
           w ++ ks.filter (fun k => !decide (prio.getD k [] = [])))
  | [], d, w, _, _, _ => by simp
  | k :: ks, d, w, hp, hd, hw => by
    rw [List.pairwise_cons] at hp
    rw [List.foldl_cons]
    by_cases hk : prio.getD k [] = []
    · rw [if_pos hk]
      have hset : setAdd d k = d ++ [k] :=
        setAdd_append_of_lt d k (fun x hx => hd x hx k (.head _))
      rw [hset,
        classify_spec prio ks (d ++ [k]) w hp.2
          (fun x hx k' hk' => by
            rw [List.mem_append, List.mem_singleton] at hx
            rcases hx with hx | hx
            · exact hd x hx k' (List.mem_cons_of_mem k hk')
            · subst hx; exact hp.1 k' hk')
          (fun x hx k' hk' => hw x hx k' (List.mem_cons_of_mem k hk'))]
      rw [List.filter_cons_of_pos (by simp only [decide_eq_true_eq]; exact hk),
        List.filter_cons_of_neg
          (by rw [Bool.not_eq_true', Bool.not_eq_false]; simp only [decide_eq_true_eq]; exact hk)]
      simp
    · rw [if_neg hk]
      have hset : setAdd w k = w ++ [k] :=
        setAdd_append_of_lt w k (fun x hx => hw x hx k (.head _))
      rw [hset,
        classify_spec prio ks d (w ++ [k]) hp.2
          (fun x hx k' hk' => hd x hx k' (List.mem_cons_of_mem k hk'))
          (fun x hx k' hk' => by
            rw [List.mem_append, List.mem_singleton] at hx
            rcases hx with hx | hx
            · exact hw x hx k' (List.mem_cons_of_mem k hk')
            · subst hx; exact hp.1 k' hk')]
      rw [List.filter_cons_of_neg (by simp only [decide_eq_true_eq]; exact hk),
        List.filter_cons_of_pos
          (by rw [Bool.not_eq_true', decide_eq_false_iff_not]; exact hk)]
      simp

theorem PrioClosure_spec (n : Nat) (prio : List (List Nat)) (hn : prio.length = n)
    (hv : ∀ l ∈ prio, ∀ u ∈ l, u < n) :
    (∀ pr', PrioClosure n prio = .ok pr' →
        (∀ t u, u ∈ pr'.getD t [] → ∀ x ∈ pr'.getD u [], x ∈ pr'.getD t []) ∧
        ¬ ∃ t, Relation.TransGen (prioR prio) t t) ∧
    (∀ e, PrioClosure n prio = .error e →
        ∃ t, Relation.TransGen (prioR prio) t t) := by
  have V : ∀ t u, u ∈ prio.getD t [] → u < n := by
    intro t u hu
    by_cases ht : t < prio.length
    · rw [List.getD_eq_getElem?_getD, List.getElem?_eq_getElem ht] at hu
      exact hv _ (List.getElem_mem ht) u hu
    · rw [getD_of_le prio t (by omega)] at hu
      exact absurd hu (List.not_mem_nil u)
  have hcl := classify_spec prio (List.range prio.length) [] []
    (List.pairwise_lt_range prio.length) (by simp) (by simp)
  simp only [List.nil_append] at hcl
  set p : Nat → Bool := fun k => decide (prio.getD k [] = []) with hp
  set dn₀ : List Nat := (List.range prio.length).filter p with hdn₀
  set wk₀ : List Nat := (List.range prio.length).filter (fun k => !p k) with hwk₀
  have hdn₀mem : ∀ k, k ∈ dn₀ ↔ k < prio.length ∧ prio.getD k [] = [] := by
    intro k
    rw [hdn₀, List.mem_filter, List.mem_range, hp]
    simp
  have hwk₀mem : ∀ k, k ∈ wk₀ ↔ k < prio.length ∧ prio.getD k [] ≠ [] := by
    intro k
    rw [hwk₀, List.mem_filter, List.mem_range, hp]
    simp
  have hcls : PrioClosure n prio =
      (if dn₀.length = n then Except.ok prio
       else if dn₀.length = 0 then
         Except.error "problem with priorities, no minimal elements"
       else prioLoop (wk₀.length + 1) prio dn₀ wk₀) := by
    simp only [PrioClosure, hcl]
  by_cases hb1 : dn₀.length = n
  · rw [if_pos hb1] at hcls
    have hall : ∀ k, prio.getD k [] = [] := by
      have hlen : ((List.range prio.length).filter p).length = (List.range prio.length).length := by
        rw [← hdn₀, List.length_range]
        omega
      have := filter_length_eq_all p (List.range prio.length) hlen
      intro k
      by_cases hk : k < prio.length
      · have := this k (List.mem_range.2 hk)
        rw [hp] at this
        simpa using this
      · exact getD_of_le prio k (by omega)
    have hnocyc : ¬ ∃ t, Relation.TransGen (prioR prio) t t := by
      rintro ⟨t, hcyc⟩
      exact no_edge_no_cycle prio t (hall t) hcyc
    constructor
    · intro pr' hok
      rw [hcls] at hok
      have hpr : prio = pr' := by injection hok
      subst hpr
      refine ⟨?_, hnocyc⟩
      intro t u hu
      rw [hall t] at hu
      exact absurd hu (List.not_mem_nil u)
    · intro e he
      rw [hcls] at he
      exact Except.noConfusion he
  · rw [if_neg hb1] at hcls
    by_cases hb2 : dn₀.length = 0
    · rw [if_pos hb2] at hcls
      have hdn₀nil : dn₀ = [] := List.length_eq_zero.1 hb2
      have hnon : ∀ k, k < n → prio.getD k [] ≠ [] := by
        intro k hk he
        have : k ∈ dn₀ := (hdn₀mem k).2 ⟨by omega, he⟩
        rw [hdn₀nil] at this
        exact absurd this (List.not_mem_nil k)
      have hn0 : n ≠ 0 := fun h => hb1 (by omega)
      have hcyc : ∃ t, Relation.TransGen (prioR prio) t t := by
        refine cycle_of_all_step prio (List.range n) (by simp [List.range_eq_nil, hn0]) ?_
        intro t ht
        rw [List.mem_range] at ht
        obtain ⟨u, hu⟩ := List.exists_mem_of_ne_nil _ (hnon t ht)
        exact ⟨u, List.mem_range.2 (V t u hu), hu⟩
      constructor
      · intro pr' hok
        rw [hcls] at hok
        exact Except.noConfusion hok
      · intro e _
        exact hcyc
    · rw [if_neg hb2] at hcls
      have hCinv : CloseInv n prio prio dn₀ := by
        refine ⟨rfl, (List.pairwise_lt_range prio.length).filter p, ?_, ?_, ?_⟩
        · intro t ht
          have := (hdn₀mem t).1 ht
          omega
        · intro t ht
          have hemp := ((hdn₀mem t).1 ht).2
          refine Acc.intro t (fun y hy => ?_)
          rw [prioR, hemp] at hy
          exact absurd hy (List.not_mem_nil y)
        · intro t ht u hu
          rw [((hdn₀mem t).1 ht).2] at hu
          exact absurd hu (List.not_mem_nil u)
      have hWinv : WorkInv prio prio wk₀ := by
        intro t ht
        exact ⟨rfl, ((hwk₀mem t).1 ht).2⟩
      have hloop := prioLoop_spec n prio hn V (wk₀.length + 1) prio dn₀ wk₀
        (by omega) hCinv hWinv
        ((List.pairwise_lt_range prio.length).filter _)
        (fun t ht => by
          have := (hwk₀mem t).1 ht
          omega)
        (fun t ⟨h1, h2⟩ => ((hwk₀mem t).1 h2).2 ((hdn₀mem t).1 h1).2)
        (fun t ht => by
          by_cases he : prio.getD t [] = []
          · exact Or.inl ((hdn₀mem t).2 ⟨by omega, he⟩)
          · exact Or.inr ((hwk₀mem t).2 ⟨by omega, he⟩))
      constructor
      · intro pr' hok
        rw [hcls] at hok
        obtain ⟨hacc, hlen', hclo⟩ := hloop.1 pr' hok
        refine ⟨hclo, ?_⟩
        rintro ⟨t, hcyc⟩
        obtain ⟨c, hc, _⟩ := Relation.TransGen.head'_iff.1 hcyc
        have htn : t < n := by
          by_contra hge
          rw [prioR, getD_of_le prio t (by omega)] at hc
          exact absurd hc (List.not_mem_nil c)
        exact acc_no_cycle prio t (hacc t htn) hcyc
      · intro e he
        rw [hcls] at he
        exact hloop.2 e he

/-- **C5**.  If `PrioClosure` returns without error, the resulting `Prio`
is transitively complete: whenever `u` is in `Prio[t]`, every element of
`Prio[u]` is also in `Prio[t]` (so `Prio[t]` contains every transition
reachable from `t` through the declared relation). -/
theorem claim_C5_prio_transitive (n : Nat) (prio pr' : List (List Nat))
    (hn : prio.length = n) (hv : ∀ l ∈ prio, ∀ u ∈ l, u < n)
    (hok : PrioClosure n prio = .ok pr') :
    ∀ t u, u ∈ pr'.getD t [] → ∀ x ∈ pr'.getD u [], x ∈ pr'.getD t [] :=
  ((PrioClosure_spec n prio hn hv).1 pr' hok).1

/-- **C5**, witness: the claim's own example, `pr t1 > t0` and
`pr t3 > t1 t0` (so `Prio = [[], [0], [], [0, 1]]` over 4 transitions);
closure succeeds, and instantiating the theorem at `t = 3`, `u = 1`
shows `Prio[1] ⊆ Prio[3]`, in particular `0 ∈ Prio[3]` (and `1 ∈ Prio[3]`
directly), i.e. `Prio[3] ⊇ {t0, t1}`. -/
theorem claim_C5_witness :
    PrioClosure 4 [[], [0], [], [0, 1]] = .ok [[], [0], [], [0, 1]] ∧
    (1 : Nat) ∈ ([[], [0], [], [0, 1]] : List (List Nat)).getD 3 [] ∧
    (0 : Nat) ∈ ([[], [0], [], [0, 1]] : List (List Nat)).getD 3 [] :=
  ⟨by decide, by decide,
    claim_C5_prio_transitive 4 [[], [0], [], [0, 1]] [[], [0], [], [0, 1]]
      rfl (by decide) (by decide) 3 1 (by decide) 0 (by decide)⟩

/-- **C6**.  `PrioClosure` returns an error exactly when the declared
direct priority relation has a cycle (a reflexive entry being a one-step
cycle); in particular, when some transition exists and every transition
has a non-empty direct list, it fails immediately with the
"no minimal elements" error. -/
theorem claim_C6_prio_error_iff (n : Nat) (prio : List (List Nat))
    (hn : prio.length = n) (hv : ∀ l ∈ prio, ∀ u ∈ l, u < n) :
    ((∃ e, PrioClosure n prio = .error e) ↔
      ∃ t, Relation.TransGen (prioR prio) t t) ∧
    (0 < n → (∀ t, t < n → prio.getD t [] ≠ []) →
      PrioClosure n prio = .error "problem with priorities, no minimal elements") := by
  have hspec := PrioClosure_spec n prio hn hv
  constructor
  · constructor
    · rintro ⟨e, he⟩
      exact hspec.2 e he
    · rintro ⟨t, hcyc⟩
      match hres : PrioClosure n prio with
      | .ok pr' => exact absurd ⟨t, hcyc⟩ ((hspec.1 pr' hres).2)
      | .error e => exact ⟨e, rfl⟩
  · intro hn0 hnon
    have hcl := classify_spec prio (List.range prio.length) [] []
      (List.pairwise_lt_range prio.length) (by simp) (by simp)
    simp only [List.nil_append] at hcl
    have hnil : (List.range prio.length).filter
        (fun k => decide (prio.getD k [] = [])) = [] := by
      rw [List.filter_eq_nil_iff]
      intro k hk
      rw [List.mem_range] at hk
      simp only [decide_eq_true_eq]
      exact hnon k (by omega)
    simp only [PrioClosure, hcl, hnil]
    rw [if_neg (by simpa using (by omega : (0 : Nat) ≠ n)),
      if_pos (show ([] : List Nat).length = 0 from rfl)]

/-- **C6**, witness: the claim's own example `pr t0 > t1` with
`pr t1 > t0` (`Prio = [[1], [0]]` over 2 transitions): the theorem applies,
and by it the closure fails because the relation has a cycle (indeed here
the error branch is exercised, and both transitions have non-empty direct
lists so the failure is the immediate one). -/
theorem claim_C6_witness :
    (((∃ e, PrioClosure 2 [[1], [0]] = .error e) ↔
      ∃ t, Relation.TransGen (prioR [[1], [0]]) t t) ∧
    (0 < 2 → (∀ t, t < 2 → ([[1], [0]] : List (List Nat)).getD t [] ≠ []) →
      PrioClosure 2 [[1], [0]] =
        .error "problem with priorities, no minimal elements")) :=
  claim_C6_prio_error_iff 2 [[1], [0]] rfl (by decide)

/-- `tokenKind` is the enumeration of tokens of a net file (Go
`token.go`). -/
inductive tokenKind where
  | tokTR | tokEOF | tokPL | tokNET | tokARROW | tokIDENT | tokTIMINGC
  | tokINHIBITOR | tokREAD | tokLABEL | tokILLEGAL | tokMARKING
  | tokPrio -- Go `tokPRIO`
  | tokGT | tokLT | tokSTAR | tokINT | tokNOTE
deriving DecidableEq, Repr

/-- A scanned token: its kind and its literal text (Go `token`; the
`(line, column)` position field only feeds error messages and is not
modelled). -/
structure Tok where
  tok : tokenKind
  s : List Char
deriving DecidableEq, Repr

/-- Go `eof = rune(0)`: the rune returned by `read` at end of input. -/
def eofChar : Char := Char.ofNat 0

/-- Go `scanner.read`: next rune, or `eof` when the input is exhausted. -/
def read : List Char → Char × List Char
  | [] => (eofChar, [])
  | c :: r => (c, r)

def isWhitespaceCh (ch : Char) : Bool :=
  ch = ' ' || ch = '\t' || ch = '\r' || ch = '\n'

/-- Go `isLetter`: ASCII letters plus `{` and `}` (so escaped identifiers
start like identifiers). -/
def isLetterCh (ch : Char) : Bool :=
  (decide ('a' ≤ ch) && decide (ch ≤ 'z')) ||
  (decide ('A' ≤ ch) && decide (ch ≤ 'Z')) || ch = '{' || ch = '}'

def isDigitCh (ch : Char) : Bool := decide ('0' ≤ ch) && decide (ch ≤ '9')

def isIdentCh (ch : Char) : Bool := ch = '_' || ch = '\'' || ch = '.'

/-- Go `scanNumber`: digits (optionally seeded with first digit `c`; `c`
is `rune(0)` when there is no seed), keeping one trailing SI multiplier
letter when present, otherwise unreading the terminator. -/
def scanNumber (c : Char) (chars : List Char) : List Char × List Char :=
  let buf : List Char := if c = eofChar then [] else [c]
  let digits := chars.takeWhile isDigitCh
  let rest := chars.dropWhile isDigitCh
  let (ch, rest') := read rest
  if ch = 'K' ∨ ch = 'M' ∨ ch = 'G' ∨ ch = 'T' ∨ ch = 'P' ∨ ch = 'E' then
    (buf ++ digits ++ [ch], rest')
  else (buf ++ digits, rest)

/-- The escaped-identifier loop shared by `scanIdent` and `scanLabel`
(Go: a brace-delimited chain in which `{`, `}` and `\` are
backslash-escaped).  `kind` is the token kind produced on success. -/
def scanEscaped (kind : tokenKind) : Nat → List Char → List Char → Tok × List Char
  | 0, buf, chars => (⟨.tokILLEGAL, buf⟩, chars)
  | fuel + 1, buf, chars =>
    let (ch, rest) := read chars
    if ch = eofChar ∨ ch = '\n' ∨ ch = '\r' then (⟨.tokILLEGAL, buf⟩, rest)
    else if ch = '\\' then
      let (ch2, rest2) := read rest
      if ch2 ≠ '{' ∧ ch2 ≠ '}' ∧ ch2 ≠ '\\' then
        (⟨.tokILLEGAL, buf ++ ['\\', ch2]⟩, rest2)
      else
        let (ch3, rest3) := read rest2
        if ch3 = '}' then (⟨kind, buf ++ ['\\', ch2, ch3]⟩, rest3)
        else scanEscaped kind fuel (buf ++ ['\\', ch2, ch3]) rest3
    else if ch = '}' then (⟨kind, buf ++ [ch]⟩, rest)
    else scanEscaped kind fuel (buf ++ [ch]) rest

/-- Go `scanIdent` (called after an `unread`, so `chars` starts at the
first identifier character): bare identifier run matched case-insensitively
against the reserved words, or a brace-escaped identifier. -/
def scanIdent (fuel : Nat) (chars : List Char) : Tok × List Char :=
  let (ch, rest) := read chars
  if ch = '}' then (⟨.tokILLEGAL, [ch]⟩, rest)
  else if ch = '{' then scanEscaped .tokIDENT fuel ['{'] rest
  else
    let p : Char → Bool := fun c => isLetterCh c || isDigitCh c || isIdentCh c
    let ident := chars.takeWhile p
    let rest' := chars.dropWhile p
    let up := ident.map Char.toUpper
    if up = ['T', 'R'] then (⟨.tokTR, ['t', 'r']⟩, rest')
    else if up = ['N', 'E', 'T'] then (⟨.tokNET, ['n', 'e', 't']⟩, rest')
    else if up = ['P', 'L'] then (⟨.tokPL, ['p', 'l']⟩, rest')
    else if up = ['P', 'R'] then (⟨.tokPrio, ['p', 'r']⟩, rest')
    else if up = ['N', 'T'] then (⟨.tokNOTE, ['n', 't']⟩, rest')
    else (⟨.tokIDENT, ident⟩, rest')

/-- Go `scanLabel`: skip whitespace; a leading EOF, `}` or `\` is illegal;
an escaped-brace label, or a bare label running to the next whitespace
(EOF before whitespace is illegal). -/
def scanLabel (fuel : Nat) (chars : List Char) : Tok × List Char :=
  let chars := chars.dropWhile isWhitespaceCh
  let (ch, rest) := read chars
  if ch = eofChar ∨ ch = '}' ∨ ch = '\\' then (⟨.tokILLEGAL, [ch]⟩, rest)
  else if ch = '{' then scanEscaped .tokLABEL fuel ['{'] rest
  else
    let lab := chars.takeWhile (fun c => !isWhitespaceCh c)
    let rest' := chars.dropWhile (fun c => !isWhitespaceCh c)
    if rest' = [] then (⟨.tokILLEGAL, ['E', 'O', 'F']⟩, [])
    else (⟨.tokLABEL, lab⟩, rest')

/-- Go `scanArc`: after `?`, digits give a read arc and `-` then digits an
inhibitor arc; after `*`, digits give an arc multiplicity. -/
def scanArc (r : Char) (chars : List Char) : Tok × List Char :=
  let (ch, rest) := read chars
  if r = '?' then
    if isDigitCh ch then
      let (w, rest') := scanNumber ch rest
      (⟨.tokREAD, w⟩, rest')
    else if ch = '-' then
      let (w, rest') := scanNumber eofChar rest
      (⟨.tokINHIBITOR, w⟩, rest')
    else (⟨.tokILLEGAL, [ch]⟩, rest)
  else
    if isDigitCh ch then
      let (w, rest') := scanNumber ch rest
      (⟨.tokSTAR, w⟩, rest')
    else (⟨.tokILLEGAL, [ch]⟩, rest)

/-- Go `scanMarking`: digits terminated by `)`. -/
def scanMarking (chars : List Char) : Tok × List Char :=
  let (value, rest) := scanNumber eofChar chars
  let (ch, rest') := read rest
  if ch = ')' then (⟨.tokMARKING, value⟩, rest')
  else (⟨.tokILLEGAL, [ch]⟩, rest')

/-- The collection loop of Go `scanTimingConstraint`: gather digits, `w`
and commas (normalised to spaces) until a closing bracket. -/
def scanTimingLoop : Nat → List Char → List Char → Tok × List Char
  | 0, buf, chars => (⟨.tokILLEGAL, buf⟩, chars)
  | fuel + 1, buf, chars =>
    let (ch, rest) := read chars
    if ch = '[' ∨ ch = ']' then (⟨.tokTIMINGC, buf ++ [' ', ch]⟩, rest)
    else if ch = ',' then scanTimingLoop fuel (buf ++ [' ']) rest
    else if isDigitCh ch ∨ ch = 'w' then scanTimingLoop fuel (buf ++ [ch]) rest
    else if isWhitespaceCh ch then scanTimingLoop fuel buf rest
    else (⟨.tokILLEGAL, [ch]⟩, rest)

/-- Go `scanTimingConstraint` (called after `unread`, so `chars` starts at
the opening bracket): the bracket, a space, then the collection loop. -/
def scanTimingConstraint (fuel : Nat) (chars : List Char) : Tok × List Char :=
  let (ch, rest) := read chars
  scanTimingLoop fuel [ch, ' '] rest

/-- Go `scanner.scan`: skip whitespace, then dispatch on the first
character; `#` comments are skipped up to (and excluding) the line
terminator and scanning restarts.  The fuel only bounds the number of
comment restarts (Go's recursion). -/
def scan : Nat → List Char → Tok × List Char
  | 0, chars => (⟨.tokILLEGAL, []⟩, chars)
  | fuel + 1, chars =>
    let chars := chars.dropWhile isWhitespaceCh
    let (ch, rest) := read chars
    if isLetterCh ch then scanIdent fuel chars
    else if isDigitCh ch then
      let (v, rest') := scanNumber ch rest
      (⟨.tokINT, v⟩, rest')
    else if ch = eofChar then (⟨.tokEOF, ['E', 'O', 'F']⟩, rest)
    else if ch = ':' then scanLabel fuel rest
    else if ch = '?' ∨ ch = '*' then scanArc ch rest
    else if ch = '-' then
      let (ch1, rest1) := read rest
      if ch1 = '>' then (⟨.tokARROW, ['-', '>']⟩, rest1)
      else (⟨.tokILLEGAL, [ch]⟩, rest1)
    else if ch = '(' then scanMarking rest
    else if ch = '[' ∨ ch = ']' then scanTimingConstraint fuel chars
    else if ch = '>' then (⟨.tokGT, [ch]⟩, rest)
    else if ch = '<' then (⟨.tokLT, [ch]⟩, rest)
    else if ch = '#' then
      scan fuel (rest.dropWhile (fun c => ¬(c = '\n' ∨ c = '\r' ∨ c = eofChar)))
    else (⟨.tokILLEGAL, [ch]⟩, rest)

/-- Tokenize the whole input (the Go parser pulls tokens on demand from a
stateless scanner, which is equivalent to scanning them up front). -/
def tokenize : Nat → Nat → List Char → List Tok
  | 0, _, _ => []
  | n + 1, scanFuel, chars =>
    let (tok, rest) := scan scanFuel chars
    if tok.tok = .tokEOF then [tok]
    else tok :: tokenize n scanFuel rest

/-- Go `Net` (`nets.go`): the aggregate result of parsing.  Names and
labels are Go strings, modelled as `List Char`. -/
structure Net where
  Name : List Char
  Pl : List (List Char)
  Tr : List (List Char)
  Tlabel : List (List Char)
  Plabel : List (List Char)
  Time : List TimeInterval
  Cond : List Marking
  Inhib : List Marking
  Pre : List Marking
  Delta : List Marking
  Initial : Marking
  Prio : List (List Nat)
deriving DecidableEq, Repr

/-- The zero `Net` built by `Parse` before any declaration. -/
def emptyNet : Net := ⟨[], [], [], [], [], [], [], [], [], [], [], []⟩

/-- Parser state: the net under construction plus the two name→id
registries (Go `parser.pl` and `parser.tr` maps; association lists keyed
in first-occurrence order model them, `len(map)` = list length). -/
structure PState where
  net : Net
  pl : List (List Char × Nat)
  tr : List (List Char × Nat)
deriving Repr

def mapLookup (m : List (List Char × Nat)) (s : List Char) : Option Nat :=
  (m.find? (fun p => decide (p.1 = s))).map (·.2)

/-- Go `parser.checkPL`: index of a place, creating it (with an empty
label) on first mention. -/
def checkPL (st : PState) (s : List Char) : Nat × PState :=
  match mapLookup st.pl s with
  | some n => (n, st)
  | none =>
    let n := st.pl.length
    (n, { st with
      pl := st.pl ++ [(s, n)],
      net := { st.net with
        Pl := st.net.Pl ++ [s],
        Plabel := st.net.Plabel ++ [[]] } })

/-- Go `parser.checkTR`: index of a transition, creating it (empty label,
zero-value `TimeInterval`, `nil` markings and priority list) on first
mention. -/
def checkTR (st : PState) (s : List Char) : Nat × PState :=
  match mapLookup st.tr s with
  | some n => (n, st)
  | none =>
    let n := st.tr.length
    (n, { st with
      tr := st.tr ++ [(s, n)],
      net := { st.net with
        Tr := st.net.Tr ++ [s],
        Tlabel := st.net.Tlabel ++ [[]],
        Time := st.net.Time ++ [⟨⟨.BINFTY, 0⟩, ⟨.BINFTY, 0⟩⟩],
        Cond := st.net.Cond ++ [[]],
        Inhib := st.net.Inhib ++ [[]],
        Pre := st.net.Pre ++ [[]],
        Delta := st.net.Delta ++ [[]],
        Prio := st.net.Prio ++ [[]] } })

/-- Go `strings.Fields`: split around runs of whitespace. -/
def fields (s : List Char) : List (List Char) :=
  match s with
  | [] => []
  | c :: r =>
    if isWhitespaceCh c then fields r
    else
      (c :: r).takeWhile (fun x => !isWhitespaceCh x) ::
        fields ((c :: r).dropWhile (fun x => !isWhitespaceCh x))
termination_by s.length
decreasing_by
  · simp only [List.length_cons]
    omega
  · rename_i hc
    have hstep : List.dropWhile (fun x => !isWhitespaceCh x) (c :: r)
        = List.dropWhile (fun x => !isWhitespaceCh x) r := by
      rw [List.dropWhile_cons, if_pos (by rw [Bool.not_eq_true']; exact Bool.eq_false_iff.2 hc)]
    rw [hstep]
    have := (List.dropWhile_sublist (l := r) (fun x => !isWhitespaceCh x)).length_le
    simp only [List.length_cons]
    omega

/-- The `tokTIMINGC` case of Go `parseTR`: parse the four whitespace
fields of the timing token into a `TimeInterval` and intersect it with the
transition's current interval.  Any malformation is an error, as is a
right value smaller than the left one, or an empty intersection. -/
def parseTiming (cur : TimeInterval) (s : List Char) : Except String TimeInterval :=
  let arr := fields s
  if arr.length ≠ 4 then .error " bad time interval declaration"
  else
    let lkind : Bkind := if arr.getD 0 [] = ['['] then .BCLOSE else .BOPEN
    if (goAtoi (arr.getD 1 [])).2 ≠ AtoiErr.ok then .error " in timing interval"
    else
      let lv := (goAtoi (arr.getD 1 [])).1
      if arr.getD 2 [] = ['w'] then
        match TimeInterval.intersectWith cur ⟨⟨lkind, lv⟩, ⟨.BINFTY, 0⟩⟩ with
        | (_, some e) => .error e
        | (ti, none) => .ok ti
      else
        if (goAtoi (arr.getD 2 [])).2 ≠ AtoiErr.ok then .error " in timing interval"
        else
          let rv := (goAtoi (arr.getD 2 [])).1
          if rv < lv then .error " in timing interval"
          else
            let rkind : Bkind := if arr.getD 3 [] = ['['] then .BOPEN else .BCLOSE
            match TimeInterval.intersectWith cur ⟨⟨lkind, lv⟩, ⟨rkind, rv⟩⟩ with
            | (_, some e) => .error e
            | (ti, none) => .ok ti

/-- The shared normal-arc update of Go `parseTR` (the `tokSTAR` case falls
through to the default case): an output arc adds `mult` to `Delta`; an
input arc subtracts from `Delta` and `Pre` and raises `Cond`. -/
def trArc (st : PState) (index pindex : Nat) (mult : Int) (afterArrow : Bool) : PState :=
  if afterArrow then
    { st with net := { st.net with
        Delta := st.net.Delta.set index ((st.net.Delta.getD index []).add pindex mult) } }
  else
    { st with net := { st.net with
        Delta := st.net.Delta.set index ((st.net.Delta.getD index []).add pindex (-mult)),
        Pre := st.net.Pre.set index ((st.net.Pre.getD index []).add pindex (-mult)),
        Cond := st.net.Cond.set index ((st.net.Cond.getD index []).add pindex mult) } }

/-- The declaration loop of Go `parseTR`: label and timing interval are
optional, at most once, and only before any arc; the arrow may occur once;
each place name takes an optional arc decoration; any other token is
unscanned and ends the declaration. -/
def parseTRLoop : Nat → PState → Nat → Bool → Bool → Bool → Bool → List Tok →
    Except String (PState × List Tok)
  | 0, _, _, _, _, _, _, _ => .error "fuel exhausted"
  | fuel + 1, st, index, afterArrow, haslabel, hastinterval, hasarcs, toks =>
    let tok := toks.headD ⟨.tokEOF, []⟩
    let toks1 := toks.tail
    match tok.tok with
    | .tokLABEL =>
      if haslabel ∨ hastinterval ∨ hasarcs then .error " bad label declaration"
      else
        parseTRLoop fuel
          { st with net := { st.net with Tlabel := st.net.Tlabel.set index tok.s } }
          index afterArrow true hastinterval hasarcs toks1
    | .tokTIMINGC =>
      if hastinterval ∨ hasarcs then .error " bad time interval declaration"
      else
        match parseTiming (st.net.Time.getD index ⟨⟨.BINFTY, 0⟩, ⟨.BINFTY, 0⟩⟩) tok.s with
        | .error e => .error e
        | .ok ti =>
          parseTRLoop fuel
            { st with net := { st.net with Time := st.net.Time.set index ti } }
            index afterArrow haslabel true hasarcs toks1
    | .tokARROW =>
      if afterArrow then .error " cannot have two arrows (->) in tr declaration"
      else parseTRLoop fuel st index true haslabel hastinterval true toks1
    | .tokIDENT =>
      let (pindex, st') := checkPL st tok.s
      let tok2 := toks1.headD ⟨.tokEOF, []⟩
      let toks2 := toks1.tail
      match tok2.tok with
      | .tokREAD =>
        if afterArrow then .error " read arcs in outputs of transition"
        else
          match mconvert tok2.s with
          | .error e => .error e
          | .ok mult =>
            parseTRLoop fuel
              { st' with net := { st'.net with
                  Cond := st'.net.Cond.set index
                    ((st'.net.Cond.getD index []).setifbigger pindex mult) } }
              index afterArrow haslabel hastinterval true toks2
      | .tokINHIBITOR =>
        if afterArrow then .error " inhibitor arcs in outputs of transition"
        else
          match mconvert tok2.s with
          | .error e => .error e
          | .ok mult =>
            parseTRLoop fuel
              { st' with net := { st'.net with
                  Inhib := st'.net.Inhib.set index
                    ((st'.net.Inhib.getD index []).setiflower pindex mult) } }
              index afterArrow haslabel hastinterval true toks2
      | .tokSTAR =>
        match mconvert tok2.s with
        | .error e => .error e
        | .ok mult =>
          parseTRLoop fuel (trArc st' index pindex mult afterArrow)
            index afterArrow haslabel hastinterval true toks2
      | _ =>
        parseTRLoop fuel (trArc st' index pindex 1 afterArrow)
          index afterArrow haslabel hastinterval true toks1
    | _ => .ok (st, toks)

/-- Go `parseTR`: transition name (creating the transition), then the
declaration loop. -/
def parseTR (fuel : Nat) (st : PState) (toks : List Tok) :
    Except String (PState × List Tok) :=
  let tok := toks.headD ⟨.tokEOF, []⟩
  if tok.tok ≠ .tokIDENT then .error " expected valid transition name"
  else
    let (index, st') := checkTR st tok.s
    parseTRLoop fuel st' index false false false false toks.tail

/-- The shared normal-arc update of Go `parsePL` (seen from the place):
after the arrow the place is an input of the transition (consume + guard),
before the arrow the transition produces into the place. -/
def plArc (st : PState) (index tindex : Nat) (mult : Int) (afterArrow : Bool) : PState :=
  if afterArrow then
    { st with net := { st.net with
        Delta := st.net.Delta.set tindex ((st.net.Delta.getD tindex []).add index (-mult)),
        Pre := st.net.Pre.set tindex ((st.net.Pre.getD tindex []).add index (-mult)),
        Cond := st.net.Cond.set tindex ((st.net.Cond.getD tindex []).add index mult) } }
  else
    { st with net := { st.net with
        Delta := st.net.Delta.set tindex ((st.net.Delta.getD tindex []).add index mult) } }

/-- The declaration loop of Go `parsePL`: optional label, optional initial
marking (each at most once, before any arc), then transition arc lists
around an optional arrow; read and inhibitor decorations are only legal
after the arrow. -/
def parsePLLoop : Nat → PState → Nat → Bool → Bool → Bool → Bool → List Tok →
    Except String (PState × List Tok)
  | 0, _, _, _, _, _, _, _ => .error "fuel exhausted"
  | fuel + 1, st, index, afterArrow, haslabel, hasinitm, hasarcs, toks =>
    let tok := toks.headD ⟨.tokEOF, []⟩
    let toks1 := toks.tail
    match tok.tok with
    | .tokLABEL =>
      if haslabel ∨ hasinitm ∨ hasarcs then .error " bad label declaration"
      else
        parsePLLoop fuel
          { st with net := { st.net with Plabel := st.net.Plabel.set index tok.s } }
          index afterArrow true hasinitm hasarcs toks1
    | .tokMARKING =>
      if hasinitm ∨ hasarcs then .error " bad marking declaration"
      else
        match mconvert tok.s with
        | .error e => .error e
        | .ok plm =>
          parsePLLoop fuel
            { st with net := { st.net with Initial := st.net.Initial.add index plm } }
            index afterArrow haslabel true hasarcs toks1
    | .tokARROW =>
      if afterArrow then .error " cannot have two arrows (->) in pl declaration"
      else parsePLLoop fuel st index true haslabel hasinitm true toks1
    | .tokIDENT =>
      let (tindex, st') := checkTR st tok.s
      let tok2 := toks1.headD ⟨.tokEOF, []⟩
      let toks2 := toks1.tail
      match tok2.tok with
      | .tokREAD =>
        if ¬ afterArrow then .error " read arcs in inputs of place"
        else
          match mconvert tok2.s with
          | .error e => .error e
          | .ok mult =>
            parsePLLoop fuel
              { st' with net := { st'.net with
                  Cond := st'.net.Cond.set tindex
                    ((st'.net.Cond.getD tindex []).setifbigger index mult) } }
              index afterArrow haslabel hasinitm true toks2
      | .tokINHIBITOR =>
        if ¬ afterArrow then .error " inhibitor arcs in inputs of place"
        else
          match mconvert tok2.s with
          | .error e => .error e
          | .ok mult =>
            parsePLLoop fuel
              { st' with net := { st'.net with
                  Inhib := st'.net.Inhib.set tindex
                    ((st'.net.Inhib.getD tindex []).setiflower index mult) } }
              index afterArrow haslabel hasinitm true toks2
      | .tokSTAR =>
        match mconvert tok2.s with
        | .error e => .error e
        | .ok mult =>
          parsePLLoop fuel (plArc st' index tindex mult afterArrow)
            index afterArrow haslabel hasinitm true toks2
      | _ =>
        parsePLLoop fuel (plArc st' index tindex 1 afterArrow)
          index afterArrow haslabel hasinitm true toks1
    | _ => .ok (st, toks)

/-- Go `parsePL`: place name (creating the place), then the declaration
loop. -/
def parsePL (fuel : Nat) (st : PState) (toks : List Tok) :
    Except String (PState × List Tok) :=
  let tok := toks.headD ⟨.tokEOF, []⟩
  if tok.tok ≠ .tokIDENT then .error " expected valid place name"
  else
    let (index, st') := checkPL st tok.s
    parsePLLoop fuel st' index false false false false toks.tail

/-- Go `parseNOTE`: an identifier, an integer and an identifier, parsed
and discarded. -/
def parseNOTE (st : PState) (toks : List Tok) : Except String (PState × List Tok) :=
  let tok := toks.headD ⟨.tokEOF, []⟩
  if tok.tok ≠ .tokIDENT then .error " expected a note identifier"
  else
    let tok2 := toks.tail.headD ⟨.tokEOF, []⟩
    if tok2.tok ≠ .tokINT then .error " expected a note index"
    else
      let tok3 := toks.tail.tail.headD ⟨.tokEOF, []⟩
      if tok3.tok ≠ .tokIDENT then .error " expected a note body"
      else .ok (st, toks.tail.tail.tail)

/-- One identifier-collection loop of Go `parsePRIO` (transitions are
auto-created via `checkTR`); the terminating token is left at the head of
the returned stream. -/
def prioCollect : Nat → PState → List Nat → List Tok → PState × List Nat × List Tok
  | 0, st, acc, toks => (st, acc, toks)
  | fuel + 1, st, acc, toks =>
    let tok := toks.headD ⟨.tokEOF, []⟩
    if tok.tok = .tokIDENT then
      let (n, st') := checkTR st tok.s
      prioCollect fuel st' (setAdd acc n) toks.tail
    else (st, acc, toks)

/-- Go `parsePRIO`: two identifier lists separated by `>` or `<`; each
transition on the greater side has the lesser side unioned into its raw
`Prio` list.  The token ending the second list is unscanned. -/
def parsePRIO (fuel : Nat) (st : PState) (toks : List Tok) :
    Except String (PState × List Tok) :=
  let (st1, pre, toks1) := prioCollect fuel st [] toks
  let tok := toks1.headD ⟨.tokEOF, []⟩
  if tok.tok ≠ .tokGT ∧ tok.tok ≠ .tokLT then .error "expected priority > or <"
  else
    let isgt := tok.tok = .tokGT
    let (st2, post, toks2) := prioCollect fuel st1 [] toks1.tail
    let stf :=
      if isgt then
        pre.foldl
          (fun s t => { s with net := { s.net with
            Prio := s.net.Prio.set t (setUnion (s.net.Prio.getD t []) post) } }) st2
      else
        post.foldl
          (fun s t => { s with net := { s.net with
            Prio := s.net.Prio.set t (setUnion (s.net.Prio.getD t []) pre) } }) st2
    .ok (stf, toks2)

/-- Go `parser.parse`: dispatch on the keyword tokens until `tokEOF`; any
other token at top level is a syntax error. -/
def parseToks : Nat → PState → List Tok → Except String Net
  | 0, _, _ => .error "fuel exhausted"
  | fuel + 1, st, toks =>
    let tok := toks.headD ⟨.tokEOF, []⟩
    let toks1 := toks.tail
    match tok.tok with
    | .tokEOF => .ok st.net
    | .tokNET =>
      let tok2 := toks1.headD ⟨.tokEOF, []⟩
      if tok2.tok ≠ .tokIDENT then .error " expected identifier after NET"
      else parseToks fuel { st with net := { st.net with Name := tok2.s } } toks1.tail
    | .tokTR =>
      match parseTR fuel st toks1 with
      | .error e => .error e
      | .ok (st', toks') => parseToks fuel st' toks'
    | .tokPL =>
      match parsePL fuel st toks1 with
      | .error e => .error e
      | .ok (st', toks') => parseToks fuel st' toks'
    | .tokPrio =>
      match parsePRIO fuel st toks1 with
      | .error e => .error e
      | .ok (st', toks') => parseToks fuel st' toks'
    | .tokNOTE =>
      match parseNOTE st toks1 with
      | .error e => .error e
      | .ok (st', toks') => parseToks fuel st' toks'
    | _ => .error " expected keywords"

/-- Go `Parse`: scan and parse a textual net description, returning the
built `Net` or the first error.  The fuel (input length + 10) dominates
the number of tokens, parser steps and comment restarts, all of which
consume input. -/
def Parse (input : List Char) : Except String Net :=
  let fuel := input.length + 10
  parseToks fuel ⟨emptyNet, [], []⟩ (tokenize fuel fuel input)

/-- The input of the claim's scenario: the three declarations
`tr t1 p1 p2*2 -> p3 p4 p5`, `pl p1 (1)` and `pl p2 (2)`. -/
def inputC2 : String := "tr t1 p1 p2*2 -> p3 p4 p5\npl p1 (1)\npl p2 (2)"

/-- **C2**.  Parsing the three declarations succeeds and yields a Net with
exactly 5 places and 1 transition, `Initial = {p1:1, p2:2}`,
`Cond[t1] = {p1:1, p2:2}` and
`Delta[t1] = {p1:-1, p2:-2, p3:1, p4:1, p5:1}` (places are numbered in
first-occurrence order: p1 = 0, …, p5 = 4). -/
theorem claim_C2_parse_scenario :
    (Parse inputC2.toList).toOption.map
      (fun net => (net.Pl.length, net.Tr.length, net.Initial,
        net.Cond.getD 0 [], net.Delta.getD 0 []))
      = some (5, 1,
          [⟨0, 1⟩, ⟨1, 2⟩],
          [⟨0, 1⟩, ⟨1, 2⟩],
          [⟨0, -1⟩, ⟨1, -2⟩, ⟨2, 1⟩, ⟨3, 1⟩, ⟨4, 1⟩]) := by
  decide
